import Mathlib

/-!
Verification development for the rrctl workflow analysis and autofix engine
(`repo_defrag.go` and the Go portion of the repository's autofix command).

Texts are modelled as `List Char` (`Text`).  Each Go function that the claims
touch is translated here under its source name.  Go regular expressions are
translated into explicit character scanners with the same matching semantics
on line-structured input (Go's `\s` character class, leftmost non-overlapping
replacement, backtracking of optional groups); the translation of each regex
is documented at its definition.
-/

set_option maxHeartbeats 1000000
set_option maxRecDepth 10000

/-- Texts are lists of characters. -/
abbrev Text := List Char

/-- Character class of Go's regexp `\s`: `[\t\n\f\r ]`. -/
def reWs (c : Char) : Bool :=
  c = ' ' || c = '\t' || c = '\n' || c = '\r' || c = '\x0C'

/-- Characters trimmed by Go's `strings.TrimSpace` (ASCII part of
`unicode.IsSpace`): space, `\t`, `\n`, `\v`, `\f`, `\r`. -/
def goSpace (c : Char) : Bool :=
  c = ' ' || c = '\t' || c = '\n' || c = '\x0B' || c = '\x0C' || c = '\r'

/-- Trim characters satisfying `p` from the end of a text. -/
def trimRight (p : Char → Bool) (t : Text) : Text :=
  (t.reverse.dropWhile p).reverse

/-- Go `strings.TrimSpace`. -/
def trimSpace (t : Text) : Text :=
  trimRight goSpace (t.dropWhile goSpace)

/-- Go `strings.Trim(s, cutset)`: drop characters of `cut` from both ends. -/
def trimCut (cut : List Char) (t : Text) : Text :=
  trimRight (fun c => c ∈ cut) (t.dropWhile (fun c => c ∈ cut))

/-- Go `strings.Split(s, sep)` for a one-character separator. -/
def splitOnChar (sep : Char) : Text → List Text
  | [] => [[]]
  | c :: cs =>
    if c = sep then [] :: splitOnChar sep cs
    else
      match splitOnChar sep cs with
      | l :: ls => (c :: l) :: ls
      | [] => [[c]]

/-- Go `strings.Split(s, "\n")`. -/
def splitLines (t : Text) : List Text := splitOnChar '\n' t

/-- Go `strings.Join(lines, "\n")`. -/
def joinLines : List Text → Text
  | [] => []
  | [l] => l
  | l :: ls => l ++ '\n' :: joinLines ls

theorem splitOnChar_ne_nil (sep : Char) (t : Text) : splitOnChar sep t ≠ [] := by
  induction t with
  | nil => simp [splitOnChar]
  | cons c cs ih =>
    simp only [splitOnChar]
    split
    · simp
    · cases h : splitOnChar sep cs with
      | nil => exact absurd h ih
      | cons l ls => simp [h]

theorem joinLines_splitOnChar (t : Text) :
    joinLines (splitOnChar '\n' t) = t := by
  induction t with
  | nil => simp [splitOnChar, joinLines]
  | cons c cs ih =>
    simp only [splitOnChar]
    split
    · rename_i hc
      cases h : splitOnChar '\n' cs with
      | nil => exact absurd h (splitOnChar_ne_nil _ _)
      | cons l ls =>
        subst hc
        simp only [joinLines]
        rw [h] at ih
        simpa using ih
    · cases h : splitOnChar '\n' cs with
      | nil => exact absurd h (splitOnChar_ne_nil _ _)
      | cons l ls =>
        rw [h] at ih
        cases ls with
        | nil => simp only [joinLines] at ih ⊢; simp [ih]
        | cons l2 ls2 => simp only [joinLines] at ih ⊢; simp [ih]

theorem joinLines_splitLines (t : Text) : joinLines (splitLines t) = t :=
  joinLines_splitOnChar t

theorem splitOnChar_no_sep {sep : Char} {t : Text} (l : Text)
    (hl : l ∈ splitOnChar sep t) : sep ∉ l := by
  induction t generalizing l with
  | nil => simp [splitOnChar] at hl; simp [hl]
  | cons c cs ih =>
    simp only [splitOnChar] at hl
    split at hl
    · rcases List.mem_cons.mp hl with h | h
      · simp [h]
      · exact ih l h
    · rename_i hc
      cases h : splitOnChar sep cs with
      | nil => exact absurd h (splitOnChar_ne_nil _ _)
      | cons l0 ls =>
        rw [h] at hl
        rcases List.mem_cons.mp hl with h2 | h2
        · subst h2
          have := ih l0 (h ▸ List.mem_cons_self l0 ls)
          intro hmem
          rcases List.mem_cons.mp hmem with h3 | h3
          · exact hc h3.symm
          · exact this h3
        · exact ih l (h ▸ List.mem_cons_of_mem l0 h2)

theorem splitLines_mem_no_newline {t : Text} (l : Text)
    (hl : l ∈ splitLines t) : '\n' ∉ l :=
  splitOnChar_no_sep l hl

theorem splitOnChar_joinLines {L : List Text} (hL : L ≠ [])
    (h : ∀ l ∈ L, '\n' ∉ l) : splitOnChar '\n' (joinLines L) = L := by
  induction L with
  | nil => exact absurd rfl hL
  | cons l ls ih =>
    cases ls with
    | nil =>
      simp only [joinLines]
      have hl : '\n' ∉ l := h l (List.mem_cons_self _ _)
      clear ih hL h
      induction l with
      | nil => simp [splitOnChar]
      | cons c cs ihc =>
        have hc : c ≠ '\n' := fun hc => hl (hc ▸ List.mem_cons_self c cs)
        have hcs : '\n' ∉ cs := fun hm => hl (List.mem_cons_of_mem c hm)
        simp only [splitOnChar]
        rw [if_neg (by simpa using hc)]
        rw [ihc hcs]
    | cons l2 ls2 =>
      simp only [joinLines]
      have hl : '\n' ∉ l := h l (List.mem_cons_self _ _)
      have hrest : splitOnChar '\n' (joinLines (l2 :: ls2)) = l2 :: ls2 :=
        ih (by simp) (fun x hx => h x (List.mem_cons_of_mem l hx))
      clear ih hL h
      induction l with
      | nil =>
        simp only [List.nil_append, splitOnChar]
        simp [hrest]
      | cons c cs ihc =>
        have hc : c ≠ '\n' := fun hc => hl (hc ▸ List.mem_cons_self c cs)
        have hcs : '\n' ∉ cs := fun hm => hl (List.mem_cons_of_mem c hm)
        simp only [List.cons_append, splitOnChar, List.append_eq]
        rw [if_neg (by simpa using hc)]
        rw [ihc hcs]

theorem splitLines_joinLines {L : List Text} (hL : L ≠ [])
    (h : ∀ l ∈ L, '\n' ∉ l) : splitLines (joinLines L) = L :=
  splitOnChar_joinLines hL h

/-- Lexicographic byte order used by Go `sort.Strings`. -/
def leText : Text → Text → Bool
  | [], _ => true
  | _ :: _, [] => false
  | a :: as, b :: bs => if a < b then true else if b < a then false else leText as bs

/-- Insert into a sorted list (helper for `sortStrings`). -/
def insertSorted (x : Text) : List Text → List Text
  | [] => [x]
  | y :: ys => if leText x y then x :: y :: ys else y :: insertSorted x ys

/-- Go `sort.Strings`: sorts a string slice lexicographically. -/
def sortStrings (l : List Text) : List Text := l.foldr insertSorted []

theorem insertSorted_perm (x : Text) (l : List Text) :
    List.Perm (insertSorted x l) (x :: l) := by
  induction l with
  | nil => simp [insertSorted]
  | cons y ys ih =>
    simp only [insertSorted]
    split
    · exact List.Perm.refl _
    · exact (ih.cons y).trans (List.Perm.swap x y ys)

theorem sortStrings_perm (l : List Text) : List.Perm (sortStrings l) l := by
  induction l with
  | nil => exact List.Perm.refl _
  | cons x xs ih =>
    exact (insertSorted_perm x (sortStrings xs)).trans (ih.cons x)

/-- Translation of `isLocalAction` (repo_defrag.go:582): a `uses:` reference is
local or containerized when its trimmed form starts with `./`, `../` or
`docker://`. -/
def isLocalAction (u : Text) : Bool :=
  let trim := trimSpace u
  "./".toList.isPrefixOf trim || "../".toList.isPrefixOf trim ||
    "docker://".toList.isPrefixOf trim

/-- The mutable ref names of the regex alternation `(main|master|HEAD|latest)`. -/
def mutRefs : List Text := ["main", "master", "HEAD", "latest"].map String.toList

/-- Translation of the anchored regex `unpinnedRe = ^[^@]+@(main|master|HEAD|latest)$`
(repo_defrag.go:580): the whole string is a nonempty `@`-free prefix, one `@`,
and exactly one of the mutable ref names (which are `@`-free, so splitting at
the first `@` is faithful). -/
def unpinnedRe (u : Text) : Bool :=
  match u.findIdx? (· == '@') with
  | some i => !(i == 0) && mutRefs.contains (u.drop (i + 1))
  | none => false

/-- One line of `detectConcurrencyFallback`'s loop (repo_defrag.go:559-578):
trim the line, skip blank and `#`-comment lines, and accept when the text
before the first colon trims to exactly `concurrency`. -/
def lineConc (line : Text) : Bool :=
  let trim := trimSpace line
  if trim.isEmpty then false
  else if "#".toList.isPrefixOf trim then false
  else if "concurrency".toList.isPrefixOf trim then
    match trim.findIdx? (· == ':') with
    | some i => trimSpace (trim.take i) == "concurrency".toList
    | none => false
  else false

/-- Translation of `detectConcurrencyFallback` (repo_defrag.go:559): the loop
returns true as soon as some line passes `lineConc`. -/
def detectConcurrencyFallback (text : Text) : Bool :=
  (splitLines text).any lineConc

/-- The fixed trigger vocabulary of the fallback extractor (repo_defrag.go:391). -/
def knownTriggers : List Text :=
  ["push", "pull_request", "pull_request_target", "workflow_dispatch",
   "schedule", "release", "workflow_call"].map String.toList

/-- Line form of the per-keyword regex `(?m)^\s*K\s*:` used for fallback
triggers (repo_defrag.go:394): after leading whitespace the line begins with
the keyword, then optional whitespace, then a colon. -/
def triggerKeyLine (k : Text) (line : Text) : Bool :=
  let r := line.dropWhile reWs
  k.isPrefixOf r && ((r.drop k.length).dropWhile reWs).head? == some ':'

/-- Fallback trigger extraction (repo_defrag.go:392-401): the set of known
keywords present, sorted. -/
def fallbackTriggers (text : Text) : List Text :=
  sortStrings (knownTriggers.filter (fun k => (splitLines text).any (triggerKeyLine k)))

/-- Line form of `reRunsOnLine = (?m)^\s*runs-on:\s*(.+)$` (repo_defrag.go:375).
The capture requires at least one character after `runs-on:`; the caller trims
it, so an all-whitespace remainder yields the empty token (later skipped). -/
def parseRunsOnLine (line : Text) : Option Text :=
  let r := line.dropWhile reWs
  if "runs-on:".toList.isPrefixOf r then
    let rest := r.drop 8
    if rest.isEmpty then none else some (trimSpace rest)
  else none

/-- The quote cutset `'"` of `strings.Trim(tok, "'\"")`. -/
def quoteCut : List Char := ['\'', '"']

/-- Runner tokens from `runs-on:` lines (repo_defrag.go:410-426): a bracketed
value is split on commas with quotes and spaces trimmed from each token,
otherwise the scalar is trimmed; empty tokens are dropped. -/
def runsOnScalarTokens (text : Text) : List Text :=
  (splitLines text).flatMap fun line =>
    match parseRunsOnLine line with
    | none => []
    | some raw =>
      if "[".toList.isPrefixOf raw && "]".toList.isSuffixOf raw then
        ((splitOnChar ',' (trimCut ['[', ']'] raw)).map
          (fun tok => trimSpace (trimCut quoteCut tok))).filter (fun rr => !rr.isEmpty)
      else
        let rr := trimSpace (trimCut quoteCut raw)
        if rr.isEmpty then [] else [rr]

/-- Character class `[\w\-\.]` of `reRunsOnItem` (repo_defrag.go:376). -/
def wordClassChar (c : Char) : Bool :=
  c.isAlphanum || c = '_' || c = '-' || c = '.'

/-- Line form of `reRunsOnItem = (?m)^\s*-\s*([\w\-\.]+)\s*$`: leading
whitespace, a dash, optional whitespace, a nonempty word-class token, and
nothing but whitespace to the end of the line. -/
def parseRunsOnItem (line : Text) : Option Text :=
  let r := line.dropWhile reWs
  match r with
  | '-' :: rest =>
    let r2 := rest.dropWhile reWs
    let tok := r2.takeWhile wordClassChar
    if !tok.isEmpty && (r2.drop tok.length).all reWs then some tok else none
  | _ => none

/-- YAML list-item runner tokens (repo_defrag.go:428-433). -/
def runsOnItemTokens (text : Text) : List Text :=
  (splitLines text).filterMap parseRunsOnItem

/-- Fallback runner extraction (repo_defrag.go:409-437): both token forms are
collected into a set (modelled by `dedup`) and sorted. -/
def fallbackRunners (text : Text) : List Text :=
  sortStrings ((runsOnScalarTokens text ++ runsOnItemTokens text).dedup)

/-- Line form of `reUses = (?m)^\s*uses:\s*([^@\s]+)(?:@([^\s]+))?\s*$`
(repo_defrag.go:377): leading whitespace, `uses:`, optional whitespace, a
nonempty token free of `@` and whitespace, an optional `@` plus nonempty
whitespace-free ref, then only whitespace to the end of the line.  Returns
`(usesVal, ref)` with `ref = []` when the `@` group is absent. -/
def parseUsesLine (line : Text) : Option (Text × Text) :=
  let r := line.dropWhile reWs
  if "uses:".toList.isPrefixOf r then
    let r2 := (r.drop 5).dropWhile reWs
    let t1 := r2.takeWhile (fun c => !reWs c && c != '@')
    if t1.isEmpty then none
    else
      match r2.drop t1.length with
      | '@' :: r3 =>
        let t2 := r3.takeWhile (fun c => !reWs c)
        if t2.isEmpty then none
        else if (r3.drop t2.length).all reWs then some (t1, t2) else none
      | rest => if rest.all reWs then some (t1, []) else none
  else none

/-- All `uses:` line matches of the fallback path, in line order. -/
def usesMatches (text : Text) : List (Text × Text) :=
  (splitLines text).filterMap parseUsesLine

/-- The fallback unpinned-action decisions (repo_defrag.go:441-456): local
references are skipped; a missing ref is flagged; a present ref is flagged
exactly when `usesVal@ref` matches `unpinnedRe`. -/
def fallbackUnpinnedPairs (text : Text) : List (Text × Text) :=
  (usesMatches text).filterMap fun p =>
    if isLocalAction p.1 then none
    else if p.2.isEmpty then some p
    else if unpinnedRe (p.1 ++ '@' :: p.2) then some p else none

/-- Detail strings of the fallback unpinned report: both branches of the Go
code render `uses:<usesVal>@<ref>` (with an empty ref when none was given). -/
def fallbackUnpinnedDetails (text : Text) : List Text :=
  (fallbackUnpinnedPairs text).map fun p => "uses:".toList ++ p.1 ++ '@' :: p.2

/-- Characters allowed in the capture `[^'"\n]+` of `reCron` (repo_defrag.go:374). -/
def cronCapChar (c : Char) : Bool := c != '\'' && c != '"' && c != '\n'

/-- Consume the optional quote `['\"]?` of `reCron`. -/
def dropQuote : Text → Text
  | [] => []
  | q :: rest => if q = '\'' || q = '"' then rest else q :: rest

theorem dropQuote_length_le (t : Text) : (dropQuote t).length ≤ t.length := by
  cases t with
  | nil => simp [dropQuote]
  | cons q rest => simp only [dropQuote]; split <;> simp

/-- Scanner for `reCron = cron:\s*['\"]?([^'\"\n]+)['\"]?` applied with
`FindAllStringSubmatch` (repo_defrag.go:403): at the leftmost occurrence of
`cron:`, skip whitespace and an optional quote, capture a maximal nonempty
run free of quotes and newlines, consume a closing quote when present, and
continue scanning after the match (non-overlapping). -/
def scanCron : Text → List Text
  | [] => []
  | c :: cs =>
    if "cron:".toList.isPrefixOf (c :: cs) then
      let r2 := dropQuote (((c :: cs).drop 5).dropWhile reWs)
      let cap := r2.takeWhile cronCapChar
      if cap.isEmpty then scanCron cs
      else cap :: scanCron (dropQuote (r2.drop cap.length))
    else scanCron cs
termination_by t => t.length
decreasing_by
  · simp only [List.length_cons]; omega
  · have h1 := dropQuote_length_le ((dropQuote (((c :: cs).drop 5).dropWhile reWs)).drop
      ((dropQuote (((c :: cs).drop 5).dropWhile reWs)).takeWhile cronCapChar).length)
    have h2 : ((dropQuote (((c :: cs).drop 5).dropWhile reWs)).drop
        ((dropQuote (((c :: cs).drop 5).dropWhile reWs)).takeWhile cronCapChar).length).length ≤
        (dropQuote (((c :: cs).drop 5).dropWhile reWs)).length := by
      simp [List.length_drop]
    have h3 := dropQuote_length_le (((c :: cs).drop 5).dropWhile reWs)
    have h4 : (((c :: cs).drop 5).dropWhile reWs).length ≤ ((c :: cs).drop 5).length :=
      (List.dropWhile_sublist reWs).length_le
    have h5 : ((c :: cs).drop 5).length = cs.length + 1 - 5 := by
      simp [List.length_drop]
    simp only [List.length_cons]
    omega
  · simp only [List.length_cons]; omega

/-- Fallback schedule extraction (repo_defrag.go:403-407): every `reCron`
capture, trimmed, in text order. -/
def fallbackSchedules (text : Text) : List Text :=
  (scanCron text).map trimSpace

/-- Line form of `reName = (?m)^\s*name:\s*(.+?)\s*$` (repo_defrag.go:373);
the match needs at least one character after `name:`, and the code trims the
capture. -/
def parseNameLine (line : Text) : Option Text :=
  let r := line.dropWhile reWs
  if "name:".toList.isPrefixOf r && !((r.drop 5).isEmpty) then
    some (trimSpace (r.drop 5))
  else none

/-- Fallback name extraction (repo_defrag.go:387-389): first matching line,
empty when none matches. -/
def fallbackName (text : Text) : Text :=
  match (splitLines text).findSome? parseNameLine with
  | some n => n
  | none => []

/-- Decoded YAML values as the structured extractors see them: Go's
`map[string]any` becomes an association list (Go maps cannot repeat keys;
where that matters a `Nodup` hypothesis records it), `[]any` a list, strings
a scalar, and YAML null / absent values `null`.  Type assertions of the Go
code become pattern matches. -/
inductive Yaml where
  | str (s : Text)
  | list (xs : List Yaml)
  | map (es : List (Text × Yaml))
  | null

/-- Go map indexing `m[k]` over the association-list model. -/
def lookupKey : List (Text × Yaml) → Text → Option Yaml
  | [], _ => none
  | (k, v) :: es, key => if k = key then some v else lookupKey es key

/-- Translation of `extractTriggers` (repo_defrag.go:466): a string `on` is a
single trigger, a list contributes its string items, a mapping its keys; the
result is sorted. -/
def extractTriggers (onv : Option Yaml) : List Text :=
  sortStrings (match onv with
    | some (Yaml.str v) => [v]
    | some (Yaml.list xs) => xs.filterMap fun x =>
        match x with
        | Yaml.str s => some s
        | _ => none
    | some (Yaml.map es) => es.map Prod.fst
    | _ => [])

/-- Translation of `extractSchedules` (repo_defrag.go:486): the `cron` string
of each mapping item of `on.schedule`, in declaration order. -/
def extractSchedules (onv : Option Yaml) : List Text :=
  match onv with
  | some (Yaml.map es) =>
    match lookupKey es "schedule".toList with
    | some (Yaml.list xs) => xs.filterMap fun x =>
        match x with
        | Yaml.map mm =>
          match lookupKey mm "cron".toList with
          | some (Yaml.str c) => some c
          | _ => none
        | _ => none
    | _ => []
  | _ => []

/-- Translation of `extractRunners` (repo_defrag.go:504): each job's `runs-on`
string or string-list items, collected into a set (modelled by `dedup`) and
sorted; no `jobs` mapping yields the empty list. -/
def extractRunners (root : List (Text × Yaml)) : List Text :=
  match lookupKey root "jobs".toList with
  | some (Yaml.map jobs) =>
    sortStrings ((jobs.flatMap fun jv =>
      match jv.2 with
      | Yaml.map jm =>
        match lookupKey jm "runs-on".toList with
        | some (Yaml.str rv) => [rv]
        | some (Yaml.list xs) => xs.filterMap fun x =>
            match x with
            | Yaml.str s => some s
            | _ => none
        | _ => []
      | _ => []).dedup)
  | _ => []

/-- Translation of `hasConcurrency` (repo_defrag.go:536): a non-null
workflow-level `concurrency` key, or a non-null `concurrency` key in any job
mapping. -/
def hasConcurrency (root : List (Text × Yaml)) : Bool :=
  (match lookupKey root "concurrency".toList with
    | some Yaml.null => false
    | some _ => true
    | none => false) ||
  (match lookupKey root "jobs".toList with
    | some (Yaml.map jobs) => jobs.any fun jv =>
        match jv.2 with
        | Yaml.map jm =>
          match lookupKey jm "concurrency".toList with
          | some Yaml.null => false
          | some _ => true
          | none => false
        | _ => false
    | _ => false)

/-- The flagged (jobName, uses) pairs of `detectUnpinnedActions`
(repo_defrag.go:587), in job/step declaration order: string `uses` steps whose
reference is not local and either has no `@` or matches `unpinnedRe`. -/
def unpinnedPairs (root : List (Text × Yaml)) : List (Text × Text) :=
  match lookupKey root "jobs".toList with
  | some (Yaml.map jobs) =>
    jobs.flatMap fun jv =>
      match jv.2 with
      | Yaml.map jm =>
        match lookupKey jm "steps".toList with
        | some (Yaml.list steps) =>
          steps.flatMap fun sv =>
            match sv with
            | Yaml.map sm =>
              match lookupKey sm "uses".toList with
              | some (Yaml.str u) =>
                if isLocalAction u then []
                else if !(u.contains '@') || unpinnedRe u then [(jv.1, u)] else []
              | _ => []
            | _ => []
        | _ => []
      | _ => []
  | _ => []

/-- Translation of `detectUnpinnedActions` (repo_defrag.go:587): the flag is
set when any pair was flagged, and each pair is rendered `job:<j> uses:<u>`. -/
def detectUnpinnedActions (root : List (Text × Yaml)) : Bool × List Text :=
  let ps := unpinnedPairs root
  (!ps.isEmpty, ps.map fun p => "job:".toList ++ p.1 ++ " uses:".toList ++ p.2)

/-- The `WorkflowReport` record (repo_defrag.go:41), restricted to the fields
the analysis engine computes (`LastModified` is supplied by an external
collaborator and is not modelled). -/
structure WorkflowReport where
  File : Text
  Name : Text
  Triggers : List Text
  Schedules : List Text
  Runners : List Text
  HasConcurrency : Bool
  UsesUnpinnedAction : Bool
  UnpinnedDetails : List Text
  DeprecatedHints : List Text
  Recommendations : List Text

/-- Hint emitted for an `ubuntu-22.04` runner. -/
def hintUbuntu : Text := "Consider ubuntu-24.04".toList

/-- Hint emitted for a `macos-12` runner. -/
def hintMacos : Text := "macos-12 deprecated; use macos-13/14/15".toList

/-- Hint emitted for a `self-hosted` runner. -/
def hintSelfHosted : Text :=
  "Ensure self-hosted runner labels are specific; add timeouts/concurrency".toList

/-- Hint emitted when there are more than 5 schedules. -/
def hintSchedules : Text := "Too many schedules; consider consolidation".toList

/-- Hint emitted when there are more than 5 triggers. -/
def hintTriggers : Text :=
  "Many triggers; check for overlap with other workflows".toList

/-- Translation of `detectDeprecated` (repo_defrag.go:623): per-runner hints in
runner order, then the schedule-count hint, then the trigger-count hint.  The
counts are the lengths of the `Schedules` and `Triggers` slices. -/
def detectDeprecated (w : WorkflowReport) : List Text :=
  (w.Runners.flatMap fun r =>
    (if r = "ubuntu-22.04".toList then [hintUbuntu] else []) ++
    (if r = "macos-12".toList then [hintMacos] else []) ++
    (if r = "self-hosted".toList then [hintSelfHosted] else [])) ++
  (if 5 < w.Schedules.length then [hintSchedules] else []) ++
  (if 5 < w.Triggers.length then [hintTriggers] else [])

/-- Structured-mode analysis of a selected workflow document: the body of
`analyzeWorkflowFile` after document selection (repo_defrag.go:352-369). -/
def analyzeWorkflowYaml (selected : List (Text × Yaml)) : WorkflowReport :=
  let name := match lookupKey selected "name".toList with
    | some (Yaml.str n) => if n.isEmpty then [] else n
    | _ => []
  let unp := detectUnpinnedActions selected
  let w : WorkflowReport := {
    File := []
    Name := name
    Triggers := extractTriggers (lookupKey selected "on".toList)
    Schedules := extractSchedules (lookupKey selected "on".toList)
    Runners := extractRunners selected
    HasConcurrency := hasConcurrency selected
    UsesUnpinnedAction := unp.1
    UnpinnedDetails := unp.2
    DeprecatedHints := []
    Recommendations := [] }
  { w with DeprecatedHints := detectDeprecated w }

/-- Translation of `analyzeWorkflowTextFallback` (repo_defrag.go:380) on
in-memory text: the regex-based extraction of every fact. -/
def analyzeWorkflowTextFallback (text : Text) : WorkflowReport :=
  let pairs := fallbackUnpinnedPairs text
  let w : WorkflowReport := {
    File := []
    Name := fallbackName text
    Triggers := fallbackTriggers text
    Schedules := fallbackSchedules text
    Runners := fallbackRunners text
    HasConcurrency := detectConcurrencyFallback text
    UsesUnpinnedAction := !pairs.isEmpty
    UnpinnedDetails := fallbackUnpinnedDetails text
    DeprecatedHints := []
    Recommendations := [] }
  { w with DeprecatedHints := detectDeprecated w }

/-- Indentation of `n` spaces. -/
def indSp (n : Nat) : Text := List.replicate n ' '

/-- Modelled from the spec: YAML serialization is performed by the external
`gopkg.in/yaml.v3` library, not by code under `src/`.  `renderChildrenF`
computes the indented child lines of a decoded value in standard block style:
entries of a mapping render their key line (scalar values inline after the
key) followed by the value's child lines two spaces deeper, and sequence
items render `- ` lines likewise.  The `fuel` argument makes the recursion
structural; it is consumed only when descending one nesting level, so any
fuel at least the document's nesting depth yields the untruncated rendering,
and a key line is emitted regardless of the remaining fuel. -/
def renderChildrenF : Nat → Yaml → Nat → List Text
  | _, Yaml.str _, _ => []
  | _, Yaml.null, _ => []
  | 0, Yaml.list _, _ => []
  | 0, Yaml.map _, _ => []
  | fuel + 1, Yaml.list xs, ind => xs.flatMap fun v =>
      match v with
      | Yaml.str s => [indSp ind ++ '-' :: ' ' :: s]
      | Yaml.null => [indSp ind ++ ['-']]
      | v => (indSp ind ++ ['-']) :: renderChildrenF fuel v (ind + 2)
  | fuel + 1, Yaml.map es, ind => es.flatMap fun e =>
      match e.2 with
      | Yaml.str s => [indSp ind ++ e.1 ++ ':' :: ' ' :: s]
      | Yaml.null => [indSp ind ++ e.1 ++ [':']]
      | v => (indSp ind ++ e.1 ++ [':']) :: renderChildrenF fuel v (ind + 2)

/-- Render a decoded document (a top-level mapping) to text with the given
nesting-depth fuel (see `renderChildrenF`). -/
def renderDoc (fuel : Nat) (doc : List (Text × Yaml)) : Text :=
  joinLines (renderChildrenF fuel (Yaml.map doc) 0)

/-- Index of the first line satisfying `p`, mirroring the scanning loops of
`addConcurrencyBlock` (install.sh Go part, lines 326-341). -/
def findLineIdx (p : Text → Bool) : List Text → Option Nat
  | [] => none
  | l :: ls =>
    if p l then some 0
    else match findLineIdx p ls with
      | some i => some (i + 1)
      | none => none

/-- The four-line template inserted by `addConcurrencyBlock` (lines 347-352):
a blank line, `concurrency:`, the group expression, and
`cancel-in-progress: true`. -/
def concurrencyBlock : List Text :=
  [[], "concurrency:".toList,
   "  group: $\x7b\x7b github.workflow \x7d\x7d-$\x7b\x7b github.ref \x7d\x7d".toList,
   "  cancel-in-progress: true".toList]

/-- Translation of `addConcurrencyBlock` (install.sh Go part, line 321): split
into lines; insert the template after the first line whose trimmed form starts
with `name:`, else before the first line whose trimmed form starts with `on:`,
else return the text unchanged with `changed = false`. -/
def addConcurrencyBlock (content : Text) : Text × Bool :=
  let lines := splitLines content
  let insertIdx : Option Nat :=
    match findLineIdx (fun l => "name:".toList.isPrefixOf (trimSpace l)) lines with
    | some i => some (i + 1)
    | none => findLineIdx (fun l => "on:".toList.isPrefixOf (trimSpace l)) lines
  match insertIdx with
  | none => (content, false)
  | some i => (joinLines (lines.take i ++ concurrencyBlock ++ lines.drop i), true)

/-- The pin table of `pinCommonActions` (install.sh Go part, lines 360-371).
Go iterates this table as a map, in unspecified order; it is embedded in
source order.  No action name is a prefix of another and the replacement only
touches disjoint match regions, so the result does not depend on the order. -/
def pins : List (Text × Text) :=
  [("actions/checkout", "v4"), ("actions/setup-go", "v5"),
   ("actions/setup-node", "v4"), ("actions/setup-python", "v5"),
   ("actions/cache", "v4"), ("actions/upload-artifact", "v4"),
   ("actions/download-artifact", "v4"), ("docker/setup-buildx-action", "v3"),
   ("docker/login-action", "v3"), ("docker/build-push-action", "v5")].map
    fun p => (p.1.toList, p.2.toList)

/-- Trailing group `(\s|$)` of the pin regex together with the replacement
emission: at end of input the match succeeds consuming nothing, otherwise the
next character must be whitespace and is consumed and re-emitted (`${4}`). -/
def tailMatch (stem : Text) : Text → Option (Text × Text)
  | [] => some (stem, [])
  | c :: r => if reWs c then some (stem ++ [c], r) else none

theorem tailMatch_rest_le {stem t em rest : Text}
    (h : tailMatch stem t = some (em, rest)) : rest.length ≤ t.length := by
  cases t with
  | nil => simp [tailMatch] at h; simp [h.2]
  | cons c r =>
    simp only [tailMatch] at h
    split at h
    · simp only [Option.some.injEq, Prod.mk.injEq] at h
      rw [← h.2]; simp
    · simp at h

/-- Attempt to match the regex
`(\s+uses:\s+<action>)(@(main|master|HEAD|latest))?(\s|$)` at the head of
`cs` (install.sh Go part, line 378) and build the replacement
`${1}@<version>${4}`: one or more whitespace characters, `uses:`, one or more
whitespace characters, the action literal, then either `@` plus a mutable ref
and the trailing group, or no `@` and the trailing group directly.  Returns
the emitted replacement and the rest of the input after the match.  The `\s+`
runs are maximal since they are followed by non-whitespace literals; at most
one mutable ref name can prefix the remainder; a mutable ref whose trailing
`(\s|$)` fails falls back to the empty optional group, whose own trailing
check at `@` then fails, exactly as the backtracking engine does. -/
def tryMatch (action version : Text) (cs : Text) : Option (Text × Text) :=
  let w1 := cs.takeWhile reWs
  let r1 := cs.dropWhile reWs
  if w1.isEmpty then none
  else if "uses:".toList.isPrefixOf r1 then
    let r2 := r1.drop 5
    let w2 := r2.takeWhile reWs
    let r3 := r2.dropWhile reWs
    if w2.isEmpty then none
    else if action.isPrefixOf r3 then
      let stem := w1 ++ "uses:".toList ++ w2 ++ action ++ '@' :: version
      match r3.drop action.length with
      | '@' :: r5 =>
        match mutRefs.find? (fun m => m.isPrefixOf r5) with
        | some m => tailMatch stem (r5.drop m.length)
        | none => none
      | r4 => tailMatch stem r4
    else none
  else none

theorem tryMatch_rest_lt {action version : Text} {c : Char} {cs : Text}
    {em rest : Text} (h : tryMatch action version (c :: cs) = some (em, rest)) :
    rest.length < (c :: cs).length := by
  have hstep : rest.length ≤ ((c :: cs).dropWhile reWs).length →
      ((c :: cs).takeWhile reWs).isEmpty = false →
      rest.length < (c :: cs).length := by
    intro h1 h2
    have hc : reWs c = true := by
      by_contra hc
      simp only [Bool.not_eq_true] at hc
      simp [List.takeWhile_cons, hc] at h2
    have : ((c :: cs).dropWhile reWs).length < (c :: cs).length := by
      simp only [List.dropWhile_cons, hc, if_true, List.length_cons]
      exact Nat.lt_succ_of_le ((List.dropWhile_sublist reWs).length_le)
    omega
  unfold tryMatch at h
  by_cases hw : ((c :: cs).takeWhile reWs).isEmpty
  · simp [hw] at h
  · rw [Bool.not_eq_true] at hw
    simp only [hw, Bool.false_eq_true, if_false] at h
    set r1 := (c :: cs).dropWhile reWs with hr1def
    split at h
    · set r3 := (r1.drop 5).dropWhile reWs with hr3def
      have hr3le : r3.length ≤ r1.length := by
        calc r3.length ≤ (r1.drop 5).length := (List.dropWhile_sublist reWs).length_le
        _ ≤ r1.length := by simp [List.length_drop]
      split at h
      · simp at h
      · split at h
        · have hfin : rest.length ≤ r3.length := by
            have hdroplen : (r3.drop action.length).length ≤ r3.length := by
              simp [List.length_drop]
            split at h
            · rename_i r5 heq5
              split at h
              · rename_i m hfind
                have h1 := tailMatch_rest_le h
                have h2 : (r5.drop m.length).length ≤ r5.length := by
                  simp [List.length_drop]
                have h3 : r5.length + 1 = (r3.drop action.length).length := by
                  rw [heq5]; simp
                omega
              · simp at h
            · have h1 := tailMatch_rest_le h
              rename_i r4 hne hnil
              omega
          exact hstep (le_trans hfin hr3le) hw
        · simp at h
    · simp at h

/-- Left-to-right non-overlapping scan of `reUnpinned.ReplaceAllString`
combined with `MatchString` (install.sh Go part, lines 379-382): at each
position try `tryMatch`; on success emit the replacement and continue after
the match, otherwise copy one character.  Returns the rewritten text and
whether any match occurred.  The `fuel` argument makes the recursion
structural so that the scan evaluates in the kernel; every step consumes at
least one character, so `fuel = t.length` (as `pinScan` passes) never runs
out, which `pinScanF_fuel_irrel` records. -/
def pinScanF (action version : Text) : Nat → Text → Text × Bool
  | _, [] => ([], false)
  | 0, t => (t, false)
  | fuel + 1, c :: cs =>
    match tryMatch action version (c :: cs) with
    | some (em, rest) => (em ++ (pinScanF action version fuel rest).1, true)
    | none =>
      let r := pinScanF action version fuel cs
      (c :: r.1, r.2)

/-- The regex replacement scan with sufficient fuel. -/
def pinScan (action version : Text) (t : Text) : Text × Bool :=
  pinScanF action version t.length t

theorem pinScanF_fuel_irrel (action version : Text) :
    ∀ fuel1 fuel2 t, t.length ≤ fuel1 → t.length ≤ fuel2 →
      pinScanF action version fuel1 t = pinScanF action version fuel2 t := by
  intro fuel1
  induction fuel1 using Nat.strong_induction_on with
  | _ fuel1 ih =>
    intro fuel2 t h1 h2
    cases t with
    | nil => cases fuel1 <;> cases fuel2 <;> rfl
    | cons c cs =>
      cases fuel1 with
      | zero => simp at h1
      | succ f1 =>
        cases fuel2 with
        | zero => simp at h2
        | succ f2 =>
          simp only [pinScanF]
          cases h : tryMatch action version (c :: cs) with
          | some p =>
            obtain ⟨em, rest⟩ := p
            have hlt := tryMatch_rest_lt h
            simp only [List.length_cons] at hlt h1 h2
            show (em ++ (pinScanF action version f1 rest).1, true) =
              (em ++ (pinScanF action version f2 rest).1, true)
            rw [ih f1 (by omega) f2 rest (by omega) (by omega)]
          | none =>
            simp only [List.length_cons] at h1 h2
            show (c :: (pinScanF action version f1 cs).1, (pinScanF action version f1 cs).2) =
              (c :: (pinScanF action version f2 cs).1, (pinScanF action version f2 cs).2)
            rw [ih f1 (by omega) f2 cs (by omega) (by omega)]

theorem pinScan_eq_nil (action version : Text) :
    pinScan action version [] = ([], false) := rfl

theorem pinScan_eq_cons (action version : Text) (c : Char) (cs : Text) :
    pinScan action version (c :: cs) =
      match tryMatch action version (c :: cs) with
      | some (em, rest) => (em ++ (pinScan action version rest).1, true)
      | none => (c :: (pinScan action version cs).1, (pinScan action version cs).2) := by
  unfold pinScan
  simp only [List.length_cons, pinScanF]
  cases h : tryMatch action version (c :: cs) with
  | some p =>
    obtain ⟨em, rest⟩ := p
    have hlt := tryMatch_rest_lt h
    simp only [List.length_cons] at hlt
    show (em ++ (pinScanF action version cs.length rest).1, true) =
      (em ++ (pinScanF action version rest.length rest).1, true)
    rw [pinScanF_fuel_irrel action version cs.length rest.length rest (by omega) le_rfl]
  | none => rfl

/-- Translation of `pinCommonActions` (install.sh Go part, line 359): for each
table entry, if the pattern matches the accumulated text, replace all matches
and record a change. -/
def pinCommonActions (content : Text) : Text × Bool :=
  pins.foldl
    (fun acc p =>
      let r := pinScan p.1 p.2 acc.1
      if r.2 then (r.1, true) else acc)
    (content, false)

/-- The shared tail of both fix paths (Go locals `pinned, wasChanged :=
pinCommonActions(result)` followed by the conditional update of `result` and
`changed`): pin common actions in the first-stage result and fold the change
flags. -/
def fixSecondStage (step1 : Text × Bool) : Text × Bool :=
  if (pinCommonActions step1.1).2 then ((pinCommonActions step1.1).1, true)
  else (step1.1, step1.2)

/-- Translation of `applyTextFixes` (install.sh Go part, line 389): when no
concurrency is detected by the fallback predicate, insert the concurrency
block; then pin common actions; `changed` is the disjunction. -/
def applyTextFixes (content : Text) : Text × Bool :=
  fixSecondStage (if detectConcurrencyFallback content then (content, false)
    else addConcurrencyBlock content)

/-- Translation of `applyAutoFixes` (install.sh Go part, line 293).  The YAML
decoding performed by the external `gopkg.in/yaml.v3` library is abstracted
as a parse oracle `parse`: on decode failure the text-mode path runs; on
success the structured guard `hasConcurrency` decides the insertion and the
pinning runs on the (possibly updated) text. -/
def applyAutoFixes (parse : Text → Option (List (Text × Yaml))) (content : Text) :
    Text × Bool :=
  match parse content with
  | none => applyTextFixes content
  | some doc =>
    fixSecondStage (if hasConcurrency doc then (content, false)
      else addConcurrencyBlock content)

/-- Lines of the structured diff hunk: context, removed, added. -/
inductive DiffLine where
  | ctx (l : Text)
  | rem (l : Text)
  | add (l : Text)

/-- The line loop of `generateUnifiedDiff` (install.sh Go part, lines 425-440):
positions present in both texts yield a context line when equal and a
removed/added pair when different; tail positions yield pure removals or
additions. -/
def diffBody : List Text → List Text → List DiffLine
  | o :: os, f :: fs =>
    if o = f then DiffLine.ctx o :: diffBody os fs
    else DiffLine.rem o :: DiffLine.add f :: diffBody os fs
  | o :: os, [] => DiffLine.rem o :: diffBody os []
  | [], f :: fs => DiffLine.add f :: diffBody [] fs
  | [], [] => []

/-- The structured content of `generateUnifiedDiff`'s output (install.sh Go
part, line 409): the `--- a/` and `+++ b/` header labels, the `@@ -1,n +1,m @@`
hunk counts, and the tagged hunk body. -/
structure DiffPatch where
  fromFile : Text
  toFile : Text
  origCount : Nat
  fixedCount : Nat
  body : List DiffLine

/-- Translation of `generateUnifiedDiff` (install.sh Go part, line 409). -/
def generateUnifiedDiff (filename original fixed : Text) : DiffPatch :=
  { fromFile := "a/".toList ++ filename
    toFile := "b/".toList ++ filename
    origCount := (splitLines original).length
    fixedCount := (splitLines fixed).length
    body := diffBody (splitLines original) (splitLines fixed) }

/-- Modelled from the spec: conceptual application of a diff hunk (spec section
8, round trip): context lines are kept, each removed line is replaced by its
paired added line (the generator emits the pair adjacently, so dropping the
removed line and keeping the added one realises the replacement), tail-only
removed lines are dropped and tail-only added lines appended, in hunk order. -/
def applyDiffLines (ls : List DiffLine) : List Text :=
  ls.filterMap fun dl =>
    match dl with
    | DiffLine.ctx l => some l
    | DiffLine.add l => some l
    | DiffLine.rem _ => none

theorem diffBody_apply (os fs : List Text) :
    applyDiffLines (diffBody os fs) = fs := by
  induction os generalizing fs with
  | nil =>
    induction fs with
    | nil => simp [diffBody, applyDiffLines]
    | cons f fs ihf => simp only [diffBody, applyDiffLines, List.filterMap_cons]
                       simpa [applyDiffLines] using ihf
  | cons o os ih =>
    cases fs with
    | nil =>
      have : applyDiffLines (diffBody (o :: os) []) =
          applyDiffLines (diffBody os []) := by
        simp [diffBody, applyDiffLines, List.filterMap_cons]
      rw [this, ih]
    | cons f fs =>
      by_cases heq : o = f
      · simp only [diffBody, heq, if_pos rfl, applyDiffLines, List.filterMap_cons]
        simpa [applyDiffLines] using ih fs
      · simp only [diffBody, if_neg heq, applyDiffLines, List.filterMap_cons]
        simpa [applyDiffLines] using ih fs

/-- C3: applying the generated diff patch to the original text — keeping
context lines, replacing each removed line with its paired added line, and
treating tail-only lines as pure additions or removals, in hunk order —
reconstructs exactly the fixed text, for every pair (original, fixed). -/
theorem diff_roundtrip (filename original fixed : Text) :
    joinLines (applyDiffLines (generateUnifiedDiff filename original fixed).body) =
      fixed := by
  show joinLines (applyDiffLines (diffBody (splitLines original) (splitLines fixed))) = fixed
  rw [diffBody_apply, joinLines_splitLines]

theorem findLineIdx_lt_length {p : Text → Bool} {ls : List Text} {i : Nat}
    (h : findLineIdx p ls = some i) : i < ls.length := by
  induction ls generalizing i with
  | nil => simp [findLineIdx] at h
  | cons l ls ih =>
    simp only [findLineIdx] at h
    split at h
    · simp only [Option.some.injEq] at h
      simp only [List.length_cons]
      omega
    · cases hm : findLineIdx p ls with
      | none => rw [hm] at h; simp at h
      | some j =>
        rw [hm] at h
        simp only [Option.some.injEq] at h
        have := ih hm
        simp only [List.length_cons]
        omega

theorem concurrencyBlock_no_newline : ∀ l ∈ concurrencyBlock, '\n' ∉ l := by
  decide

theorem addConcurrencyBlock_name {t : Text} {i : Nat}
    (hn : findLineIdx (fun l => "name:".toList.isPrefixOf (trimSpace l)) (splitLines t) = some i) :
    addConcurrencyBlock t =
      (joinLines ((splitLines t).take (i + 1) ++ concurrencyBlock ++
        (splitLines t).drop (i + 1)), true) := by
  unfold addConcurrencyBlock
  simp only [hn]

theorem addConcurrencyBlock_on {t : Text} {i : Nat}
    (hn : findLineIdx (fun l => "name:".toList.isPrefixOf (trimSpace l)) (splitLines t) = none)
    (ho : findLineIdx (fun l => "on:".toList.isPrefixOf (trimSpace l)) (splitLines t) = some i) :
    addConcurrencyBlock t =
      (joinLines ((splitLines t).take i ++ concurrencyBlock ++
        (splitLines t).drop i), true) := by
  unfold addConcurrencyBlock
  simp only [hn, ho]

theorem addConcurrencyBlock_none {t : Text}
    (hn : findLineIdx (fun l => "name:".toList.isPrefixOf (trimSpace l)) (splitLines t) = none)
    (ho : findLineIdx (fun l => "on:".toList.isPrefixOf (trimSpace l)) (splitLines t) = none) :
    addConcurrencyBlock t = (t, false) := by
  unfold addConcurrencyBlock
  simp only [hn, ho]

theorem addConcurrencyBlock_unchanged {t : Text}
    (h : (addConcurrencyBlock t).2 = false) : (addConcurrencyBlock t).1 = t := by
  cases hn : findLineIdx (fun l => "name:".toList.isPrefixOf (trimSpace l)) (splitLines t) with
  | some i => rw [addConcurrencyBlock_name hn] at h; simp at h
  | none =>
    cases ho : findLineIdx (fun l => "on:".toList.isPrefixOf (trimSpace l)) (splitLines t) with
    | some i => rw [addConcurrencyBlock_on hn ho] at h; simp at h
    | none => rw [addConcurrencyBlock_none hn ho]

theorem insert_block_lines {t : Text} {i : Nat} :
    splitLines (joinLines ((splitLines t).take i ++ concurrencyBlock ++ (splitLines t).drop i)) =
      (splitLines t).take i ++ concurrencyBlock ++ (splitLines t).drop i := by
  apply splitLines_joinLines
  · intro hnil
    have := congrArg List.length hnil
    simp [concurrencyBlock] at this
  · intro l hl
    rcases List.mem_append.mp hl with hl1 | hl2
    · rcases List.mem_append.mp hl1 with hl3 | hl4
      · exact splitLines_mem_no_newline l ((List.take_sublist _ _).subset hl3)
      · exact concurrencyBlock_no_newline l hl4
    · exact splitLines_mem_no_newline l ((List.drop_sublist _ _).subset hl2)

/-- C10: whenever the concurrency-insertion transformation changes the text,
its output's lines are exactly the original lines with the four-line template
inserted at one position; every original line appears unchanged and in its
original relative order. -/
theorem addConcurrencyBlock_frame (t : Text)
    (h : (addConcurrencyBlock t).2 = true) :
    ∃ i, i ≤ (splitLines t).length ∧
      splitLines ((addConcurrencyBlock t).1) =
        (splitLines t).take i ++ concurrencyBlock ++ (splitLines t).drop i := by
  cases hn : findLineIdx (fun l => "name:".toList.isPrefixOf (trimSpace l)) (splitLines t) with
  | some i =>
    rw [addConcurrencyBlock_name hn]
    exact ⟨i + 1, findLineIdx_lt_length hn, insert_block_lines⟩
  | none =>
    cases ho : findLineIdx (fun l => "on:".toList.isPrefixOf (trimSpace l)) (splitLines t) with
    | some i =>
      rw [addConcurrencyBlock_on hn ho]
      exact ⟨i, le_of_lt (findLineIdx_lt_length ho), insert_block_lines⟩
    | none => rw [addConcurrencyBlock_none hn ho] at h; simp at h

/-- C10 witness: a concrete text that the transformation changes. -/
theorem addConcurrencyBlock_frame_witness :
    ∃ i, i ≤ (splitLines "name: ci\non: push".toList).length ∧
      splitLines ((addConcurrencyBlock "name: ci\non: push".toList).1) =
        (splitLines "name: ci\non: push".toList).take i ++ concurrencyBlock ++
          (splitLines "name: ci\non: push".toList).drop i :=
  addConcurrencyBlock_frame _ (by decide)

theorem fixSecondStage_false {s : Text × Bool}
    (h : (fixSecondStage s).2 = false) :
    (fixSecondStage s).1 = s.1 ∧ s.2 = false := by
  unfold fixSecondStage at h ⊢
  by_cases hp : (pinCommonActions s.1).2 = true
  · rw [if_pos hp] at h; simp at h
  · rw [if_neg hp] at h ⊢
    exact ⟨rfl, h⟩

theorem applyTextFixes_unchanged {t : Text}
    (h : (applyTextFixes t).2 = false) : (applyTextFixes t).1 = t := by
  unfold applyTextFixes at h ⊢
  obtain ⟨h1, h2⟩ := fixSecondStage_false h
  rw [h1]
  by_cases hd : detectConcurrencyFallback t
  · rw [if_pos hd]
  · rw [if_neg hd] at h2 ⊢
    exact addConcurrencyBlock_unchanged h2

theorem applyAutoFixes_none {parse : Text → Option (List (Text × Yaml))} {t : Text}
    (hp : parse t = none) : applyAutoFixes parse t = applyTextFixes t := by
  unfold applyAutoFixes
  rw [hp]

theorem applyAutoFixes_some {parse : Text → Option (List (Text × Yaml))}
    {t : Text} {doc : List (Text × Yaml)} (hp : parse t = some doc) :
    applyAutoFixes parse t =
      fixSecondStage (if hasConcurrency doc then (t, false)
        else addConcurrencyBlock t) := by
  unfold applyAutoFixes
  rw [hp]

/-- C9: the autofixer is total and honest about no-ops: for every parse oracle
and every input text, whenever it reports `changed = false` the returned text
is exactly the input, and whenever structured parsing fails it runs exactly
the text-mode fix path instead of failing. -/
theorem autofixer_total_behavior :
    (∀ parse t, (applyAutoFixes parse t).2 = false → (applyAutoFixes parse t).1 = t) ∧
    (∀ parse t, parse t = none → applyAutoFixes parse t = applyTextFixes t) := by
  constructor
  · intro parse t h
    cases hp : parse t with
    | none =>
      rw [applyAutoFixes_none hp] at h ⊢
      exact applyTextFixes_unchanged h
    | some doc =>
      rw [applyAutoFixes_some hp] at h ⊢
      obtain ⟨h1, h2⟩ := fixSecondStage_false h
      rw [h1]
      by_cases hc : hasConcurrency doc
      · rw [if_pos hc]
      · rw [if_neg hc] at h2 ⊢
        exact addConcurrencyBlock_unchanged h2
  · intro parse t h
    exact applyAutoFixes_none h

/-- C9 witness: a text with a concurrency block and no pinnable action is
returned unchanged with `changed = false`, and a failing parse routes to the
text path. -/
theorem autofixer_total_behavior_witness :
    (applyAutoFixes (fun _ => none) "concurrency: g".toList).1 = "concurrency: g".toList ∧
    applyAutoFixes (fun _ => none) "concurrency: g".toList =
      applyTextFixes "concurrency: g".toList :=
  ⟨autofixer_total_behavior.1 (fun _ => none) _ (by decide),
   autofixer_total_behavior.2 (fun _ => none) _ rfl⟩

/-- The concurrency-insertion transformation alone: the first stage of
`applyTextFixes`, guarded by the same detection predicate, without the
pinning stage. -/
def fixConcurrencyOnly (content : Text) : Text × Bool :=
  if detectConcurrencyFallback content then (content, false)
  else addConcurrencyBlock content

theorem fixConcurrencyOnly_detect {t : Text}
    (h : detectConcurrencyFallback t = true) : fixConcurrencyOnly t = (t, false) := by
  unfold fixConcurrencyOnly
  rw [if_pos h]

theorem fixConcurrencyOnly_not {t : Text}
    (h : detectConcurrencyFallback t = false) :
    fixConcurrencyOnly t = addConcurrencyBlock t := by
  unfold fixConcurrencyOnly
  rw [if_neg (by simp [h])]

theorem detect_after_insert {t : Text} {i : Nat} :
    detectConcurrencyFallback
      (joinLines ((splitLines t).take i ++ concurrencyBlock ++
        (splitLines t).drop i)) = true := by
  unfold detectConcurrencyFallback
  rw [insert_block_lines]
  apply List.any_eq_true.mpr
  refine ⟨"concurrency:".toList, ?_, by decide⟩
  exact List.mem_append.mpr (Or.inl (List.mem_append.mpr (Or.inr (by decide))))

/-- C2 amended: the text-mode concurrency-insertion transformation alone is
idempotent: a second application never reports a change, for every input
text. -/
theorem concurrency_fix_idempotent (t : Text) :
    (fixConcurrencyOnly (fixConcurrencyOnly t).1).2 = false := by
  by_cases hd : detectConcurrencyFallback t = true
  · rw [fixConcurrencyOnly_detect hd]
    show (fixConcurrencyOnly t).2 = false
    rw [fixConcurrencyOnly_detect hd]
  · rw [Bool.not_eq_true] at hd
    rw [fixConcurrencyOnly_not hd]
    cases hn : findLineIdx (fun l => "name:".toList.isPrefixOf (trimSpace l)) (splitLines t) with
    | some i =>
      rw [addConcurrencyBlock_name hn]
      show (fixConcurrencyOnly (joinLines ((splitLines t).take (i + 1) ++
        concurrencyBlock ++ (splitLines t).drop (i + 1)))).2 = false
      rw [fixConcurrencyOnly_detect detect_after_insert]
    | none =>
      cases ho : findLineIdx (fun l => "on:".toList.isPrefixOf (trimSpace l)) (splitLines t) with
      | some i =>
        rw [addConcurrencyBlock_on hn ho]
        show (fixConcurrencyOnly (joinLines ((splitLines t).take i ++
          concurrencyBlock ++ (splitLines t).drop i))).2 = false
        rw [fixConcurrencyOnly_detect detect_after_insert]
      | none =>
        rw [addConcurrencyBlock_none hn ho]
        show (fixConcurrencyOnly t).2 = false
        rw [fixConcurrencyOnly_not hd, addConcurrencyBlock_none hn ho]

/-- C2 counterexample: on this text the first pinning pass consumes, as the
trailing whitespace of its match, the newline that the second (unindented)
`uses:` line would need as its leading whitespace, so that line is rewritten
only by a second application: both the pinning transformation alone and the
combined text-mode fixer report a change on their second run, refuting
`fix(fix(text).fixedText).changed == false`. -/
theorem pin_twice_changes :
    (pinCommonActions
      (pinCommonActions
        "a\n uses: actions/checkout\nuses: actions/checkout x".toList).1).2 = true ∧
    (applyTextFixes
      (applyTextFixes
        "a\n uses: actions/checkout\nuses: actions/checkout x".toList).1).2 = true := by
  constructor
  · decide
  · decide

theorem takeWhile_append_all {p : Char → Bool} (u x : Text)
    (hu : ∀ c ∈ u, p c = true) (hx : ∀ c, x.head? = some c → p c = false) :
    (u ++ x).takeWhile p = u ∧ (u ++ x).dropWhile p = x := by
  induction u with
  | nil =>
    simp only [List.nil_append]
    cases x with
    | nil => simp
    | cons c cs =>
      have := hx c rfl
      simp [List.takeWhile_cons, List.dropWhile_cons, this]
  | cons a as ih =>
    have ha := hu a (List.mem_cons_self _ _)
    have ih2 := ih (fun c hc => hu c (List.mem_cons_of_mem a hc))
    simp [List.takeWhile_cons, List.dropWhile_cons, ha, ih2.1, ih2.2]

theorem isPrefixOf_self_append (u x : Text) : u.isPrefixOf (u ++ x) = true := by
  induction u with
  | nil => simp [List.isPrefixOf]
  | cons a as ih => simp [List.isPrefixOf, ih]

theorem mutRefs_nonws : ∀ m ∈ mutRefs, ∀ c ∈ m, reWs c = false := by decide

theorem mutRefs_no_at : ∀ m ∈ mutRefs, '@' ∉ m := by decide

theorem uses_nonws : ∀ c ∈ "uses:".toList, reWs c = false := by decide

theorem head?_append_left {l1 l2 : Text} (h : l1 ≠ []) :
    (l1 ++ l2).head? = l1.head? := by
  cases l1 with
  | nil => exact absurd rfl h
  | cons a as => rfl

theorem getLast?_some_mem {l : Text} {c : Char} (h : l.getLast? = some c) : c ∈ l := by
  have hm : c ∈ l.getLast? := by rw [h]; rfl
  obtain ⟨hne, he⟩ := List.mem_getLast?_eq_getLast hm
  rw [he]
  exact List.getLast_mem hne

theorem getLast?_some_of_ne_nil {l : Text} (h : l ≠ []) :
    ∃ c, l.getLast? = some c := by
  cases hc : l.getLast? with
  | none => exact absurd (List.getLast?_eq_none_iff.mp hc) h
  | some c => exact ⟨c, rfl⟩

theorem suffix_getLast?_all {p : Char → Bool} {u x : Text} (hs : u <:+ x)
    (hx : x.getLast?.all p = true) : u.getLast?.all p = true := by
  cases hu : u.getLast? with
  | none => rfl
  | some c =>
    have hune : u ≠ [] := by
      intro he
      rw [he] at hu
      simp at hu
    obtain ⟨w, hw⟩ := hs
    rw [← hw, List.getLast?_append_of_ne_nil w hune, hu] at hx
    simpa using hx

theorem append_getLast?_all {p : Char → Bool} {u x : Text}
    (hx : (u ++ x).getLast?.all p = true) (hne : x ≠ []) :
    x.getLast?.all p = true := by
  rw [List.getLast?_append_of_ne_nil u hne] at hx
  exact hx

theorem cons_getLast?_all {p : Char → Bool} {c : Char} {x : Text}
    (hx : (c :: x).getLast?.all p = true) (hne : x ≠ []) :
    x.getLast?.all p = true := by
  have : (c :: x) = [c] ++ x := rfl
  rw [this] at hx
  exact append_getLast?_all hx hne

theorem takeWhile_dropWhile_append_stop {p : Char → Bool} (u v : Text)
    (hv : ∀ c, v.head? = some c → p c = false) :
    (u ++ v).takeWhile p = u.takeWhile p ∧ (u ++ v).dropWhile p = u.dropWhile p ++ v := by
  induction u with
  | nil =>
    simp only [List.nil_append, List.takeWhile_nil, List.dropWhile_nil]
    cases v with
    | nil => simp
    | cons c cs =>
      have := hv c rfl
      simp [List.takeWhile_cons, List.dropWhile_cons, this]
  | cons a as ih =>
    by_cases ha : p a
    · simp only [List.cons_append, List.takeWhile_cons, List.dropWhile_cons, ha,
        if_true, ih.1, ih.2]
      simp
    · simp [List.takeWhile_cons, List.dropWhile_cons, ha]

theorem all_prefix_append_left {q : Char → Bool} {u v b : Text}
    (hu : u.all q = true) (hb : ∀ c, b.head? = some c → q c = false)
    (h : u <+: v ++ b) : u <+: v := by
  rcases List.prefix_or_prefix_of_prefix h (List.prefix_append v b) with h1 | h2
  · exact h1
  · obtain ⟨u', hu'⟩ := h2
    rw [← hu'] at h
    have h3 : u' <+: b := (List.prefix_append_right_inj v).mp h
    cases u' with
    | nil => rw [← hu', List.append_nil]
    | cons c cs =>
      obtain ⟨t, ht⟩ := h3
      have hbc : b.head? = some c := by rw [← ht]; rfl
      have := hb c hbc
      have hcu : c ∈ u := by rw [← hu']; exact List.mem_append_right v (List.mem_cons_self c cs)
      have := List.all_eq_true.mp hu c hcu
      simp_all

/-- Core of the pinned-reference frame property: a successful match of the
pin regex on `x ++ (<action0>@<r>) ++ b`, where the occurrence is delimited
by whitespace (or the ends of the text), is consumed entirely inside `x`.
The maximal-whitespace runs of the regex pin its `uses:` and action literals
to whitespace-delimited tokens, and the occurrence token cannot be any of
them: it contains `@` while `uses:` and the action literal do not, and its
ref is not a mutable ref. -/
theorem tryMatch_bound {action version action0 r : Text}
    (haw : action.all (fun c => !reWs c) = true)
    (haat : '@' ∉ action)
    (hcall : (action0 ++ '@' :: r).all (fun c => !reWs c) = true)
    (ha0 : action0 ≠ []) (ha0at : '@' ∉ action0) (hrmut : r ∉ mutRefs) :
    ∀ {x b em rest : Text}, x.getLast?.all reWs = true → b.head?.all reWs = true →
    tryMatch action version (x ++ ((action0 ++ '@' :: r) ++ b)) = some (em, rest) →
    ∃ x', rest = x' ++ ((action0 ++ '@' :: r) ++ b) ∧ x'.getLast?.all reWs = true ∧
      x'.length < x.length := by
  intro x b em rest hxl hbh h
  -- facts about the protected occurrence
  have hcne : (action0 ++ '@' :: r) ≠ [] := by
    cases action0 with
    | nil => exact absurd rfl ha0
    | cons a as => simp
  have hcmem : ∀ c ∈ action0 ++ '@' :: r, reWs c = false := by
    intro c hc
    have := List.all_eq_true.mp hcall c hc
    simpa using this
  have hchead : ∀ c, ((action0 ++ '@' :: r) ++ b).head? = some c → reWs c = false := by
    intro c hc
    rw [head?_append_left hcne] at hc
    refine hcmem c ?_
    cases hc0 : (action0 ++ '@' :: r) with
    | nil => exact absurd hc0 hcne
    | cons d ds =>
      rw [hc0, List.head?_cons] at hc
      injection hc with hc
      rw [← hc]
      exact List.mem_cons_self _ _
  have hbq : ∀ c, b.head? = some c → (fun c => !reWs c) c = false := by
    intro c hc
    cases hb0 : b.head? with
    | none => rw [hb0] at hc; exact absurd hc (by simp)
    | some d =>
      rw [hb0] at hc
      injection hc with hc
      rw [hb0] at hbh
      simp only [Option.all] at hbh
      rw [← hc]
      simp [hbh]
  -- stage 1: the leading whitespace run stops inside x
  have hsplit1 := takeWhile_dropWhile_append_stop x ((action0 ++ '@' :: r) ++ b) hchead
  simp only [tryMatch] at h
  rw [hsplit1.1, hsplit1.2] at h
  split at h
  · exact absurd h (by simp)
  · rename_i hw1
    have hw1ne : x.takeWhile reWs ≠ [] := by
      intro he
      rw [he] at hw1
      exact hw1 rfl
    have hL1 : (x.dropWhile reWs).length < x.length := by
      have he : (x.takeWhile reWs ++ x.dropWhile reWs).length = x.length := by
        rw [List.takeWhile_append_dropWhile]
      rw [List.length_append] at he
      have : 0 < (x.takeWhile reWs).length := List.length_pos.mpr hw1ne
      omega
    have hx1last : (x.dropWhile reWs).getLast?.all reWs = true :=
      suffix_getLast?_all (List.dropWhile_suffix reWs) hxl
    split at h
    · rename_i hu
      -- "uses:" is a prefix of x1 ++ (core ++ b)
      have hupre : "uses:".toList <+: x.dropWhile reWs ++ ((action0 ++ '@' :: r) ++ b) :=
        List.isPrefixOf_iff_prefix.mp hu
      by_cases hx1e : x.dropWhile reWs = []
      · -- the run before the occurrence is pure whitespace: "uses:" would
        -- have to sit inside the occurrence, which is impossible
        exfalso
        rw [hx1e, List.nil_append] at hupre
        have huc : "uses:".toList <+: (action0 ++ '@' :: r) :=
          all_prefix_append_left (by decide) hbq hupre
        obtain ⟨z, hz⟩ := huc
        cases z with
        | nil =>
          have hat : '@' ∈ action0 ++ '@' :: r :=
            List.mem_append_right _ (List.mem_cons_self _ _)
          rw [← hz, List.append_nil] at hat
          exact absurd hat (by decide)
        | cons e z' =>
          have hez : reWs e = false := by
            refine hcmem e ?_
            rw [← hz]
            exact List.mem_append_right _ (List.mem_cons_self _ _)
          rw [hx1e, List.nil_append] at h
          have hd5 : ((action0 ++ '@' :: r) ++ b).drop 5 = (e :: z') ++ b := by
            rw [← hz, List.append_assoc]
            exact List.drop_left' (by decide)
          rw [hd5] at h
          rw [show ((e :: z') ++ b).takeWhile reWs = [] from by
            simp [List.takeWhile_cons, hez]] at h
          simp at h
      · -- main route: "uses:" lies inside x
        have hx1pre : x.dropWhile reWs <+: x.dropWhile reWs ++ ((action0 ++ '@' :: r) ++ b) :=
          List.prefix_append _ _
        rcases List.prefix_or_prefix_of_prefix hupre hx1pre with hcu | hcu
        swap
        · -- x1 a prefix of "uses:" means its whitespace last char sits in "uses:"
          exfalso
          obtain ⟨lc, hlc⟩ := getLast?_some_of_ne_nil hx1e
          have hlcw : reWs lc = true := by
            rw [hlc] at hx1last
            simpa using hx1last
          have hlcm : lc ∈ "uses:".toList := hcu.subset (getLast?_some_mem hlc)
          have := uses_nonws lc hlcm
          rw [hlcw] at this
          exact absurd this (by simp)
        obtain ⟨x2, hx2⟩ := hcu
        have hL2 : x2.length ≤ (x.dropWhile reWs).length := by
          have := congrArg List.length hx2
          rw [List.length_append] at this
          omega
        have hx2last : x2.getLast?.all reWs = true := by
          by_cases hx2e : x2 = []
          · rw [hx2e]; rfl
          · exact append_getLast?_all (hx2 ▸ hx1last) hx2e
        rw [← hx2] at h
        have hd5 : (("uses:".toList ++ x2) ++ ((action0 ++ '@' :: r) ++ b)).drop 5 =
            x2 ++ ((action0 ++ '@' :: r) ++ b) := by
          rw [List.append_assoc]
          exact List.drop_left' (by decide)
        rw [hd5] at h
        have hsplit2 := takeWhile_dropWhile_append_stop x2 ((action0 ++ '@' :: r) ++ b) hchead
        rw [hsplit2.1, hsplit2.2] at h
        split at h
        · exact absurd h (by simp)
        · rename_i hw2
          have hL3 : (x2.dropWhile reWs).length ≤ x2.length :=
            (List.dropWhile_sublist reWs).length_le
          have hx3last : (x2.dropWhile reWs).getLast?.all reWs = true :=
            suffix_getLast?_all (List.dropWhile_suffix reWs) hx2last
          split at h
          · rename_i hpa
            have hapre : action <+: x2.dropWhile reWs ++ ((action0 ++ '@' :: r) ++ b) :=
              List.isPrefixOf_iff_prefix.mp hpa
            by_cases hx3e : x2.dropWhile reWs = []
            · -- the matched action literal starts exactly at the occurrence
              rw [hx3e, List.nil_append] at h hapre
              have hacore : action <+: action0 ++ '@' :: r :=
                all_prefix_append_left haw hbq hapre
              by_cases heqa : action = action0
              · subst heqa
                have hda : ((action ++ '@' :: r) ++ b).drop action.length =
                    '@' :: (r ++ b) := by
                  rw [List.append_assoc]
                  exact List.drop_left _ _
                rw [hda] at h
                split at h
                swap
                · rename_i hne
                  exact absurd rfl (hne (r ++ b))
                rename_i r5 heq
                injection heq with h1 h2
                subst h2
                split at h
                swap
                · exact absurd h (by simp)
                · rename_i m hfind
                  have hm := List.mem_of_find?_eq_some hfind
                  have hmpre : m <+: r ++ b := by
                    have := List.find?_some hfind
                    exact List.isPrefixOf_iff_prefix.mp this
                  have hmall : m.all (fun c => !reWs c) = true :=
                    List.all_eq_true.mpr (fun c hcm => by
                      simp [mutRefs_nonws m hm c hcm])
                  have hmr : m <+: r := all_prefix_append_left hmall hbq hmpre
                  obtain ⟨r2, hr2⟩ := hmr
                  cases r2 with
                  | nil =>
                    rw [List.append_nil] at hr2
                    exact absurd (hr2 ▸ hm) hrmut
                  | cons d r3 =>
                    have hdm : (r ++ b).drop m.length = d :: (r3 ++ b) := by
                      rw [← hr2]
                      rw [show (m ++ d :: r3) ++ b = m ++ (d :: (r3 ++ b)) from by
                        simp [List.append_assoc]]
                      exact List.drop_left _ _
                    rw [hdm] at h
                    have hdw : reWs d = false := by
                      refine hcmem d ?_
                      refine List.mem_append_right _ (List.mem_cons_of_mem _ ?_)
                      rw [← hr2]
                      exact List.mem_append_right _ (List.mem_cons_self _ _)
                    simp [tailMatch, hdw] at h
              · have ha0pre : action0 <+: action0 ++ '@' :: r := List.prefix_append _ _
                rcases List.prefix_or_prefix_of_prefix hacore ha0pre with hA | hB
                · obtain ⟨w, hwv⟩ := hA
                  cases w with
                  | nil => exact absurd (by rw [← hwv, List.append_nil]) heqa
                  | cons w0 w' =>
                    have hw0m : w0 ∈ action0 := by
                      rw [← hwv]
                      exact List.mem_append_right _ (List.mem_cons_self _ _)
                    have hw0at : w0 ≠ '@' := fun he => ha0at (he ▸ hw0m)
                    have hw0ws : reWs w0 = false := hcmem w0 (List.mem_append_left _ hw0m)
                    have hda : ((action0 ++ '@' :: r) ++ b).drop action.length =
                        w0 :: (w' ++ ('@' :: r ++ b)) := by
                      rw [← hwv]
                      rw [show ((action ++ w0 :: w') ++ '@' :: r) ++ b =
                        action ++ (w0 :: (w' ++ ('@' :: r ++ b))) from by
                          simp [List.append_assoc]]
                      exact List.drop_left _ _
                    rw [hda] at h
                    split at h
                    · rename_i r5 heq
                      injection heq with h1 h2
                      exact absurd h1 hw0at
                    · simp [tailMatch, hw0ws] at h
                · obtain ⟨w, hwv⟩ := hB
                  cases w with
                  | nil => exact (heqa (by rw [← hwv, List.append_nil])).elim
                  | cons w0 w' =>
                    rw [← hwv] at hacore
                    have hwpre : (w0 :: w') <+: '@' :: r :=
                      (List.prefix_append_right_inj action0).mp hacore
                    obtain ⟨t, ht⟩ := hwpre
                    have ht' : w0 :: (w' ++ t) = '@' :: r := ht
                    injection ht' with h1 h2
                    have hat : '@' ∈ action := by
                      rw [← hwv]
                      exact List.mem_append_right _ (h1 ▸ List.mem_cons_self w0 w')
                    exact absurd hat haat
            · -- the matched action literal lies inside x
              rcases List.prefix_or_prefix_of_prefix hapre
                (List.prefix_append (x2.dropWhile reWs) _) with hc1 | hc2
              swap
              · exfalso
                obtain ⟨lc, hlc⟩ := getLast?_some_of_ne_nil hx3e
                have hlcw : reWs lc = true := by
                  rw [hlc] at hx3last
                  simpa using hx3last
                have hlcm : lc ∈ action := hc2.subset (getLast?_some_mem hlc)
                have := List.all_eq_true.mp haw lc hlcm
                simp [hlcw] at this
              · obtain ⟨x4, hx4⟩ := hc1
                have hda : (x2.dropWhile reWs ++ ((action0 ++ '@' :: r) ++ b)).drop
                    action.length = x4 ++ ((action0 ++ '@' :: r) ++ b) := by
                  rw [← hx4, List.append_assoc]
                  exact List.drop_left _ _
                rw [hda] at h
                have hlen4 : action.length + x4.length = (x2.dropWhile reWs).length := by
                  have := congrArg List.length hx4
                  rw [List.length_append] at this
                  omega
                have hx4last : x4 ≠ [] → x4.getLast?.all reWs = true := fun hne =>
                  append_getLast?_all (by rw [hx4]; exact hx3last) hne
                split at h
                · rename_i r5 heq
                  cases x4 with
                  | nil =>
                    exfalso
                    rw [List.nil_append] at heq
                    cases ha0c : action0 with
                    | nil => exact absurd ha0c ha0
                    | cons a0 as0 =>
                      rw [ha0c] at heq
                      rw [show ((a0 :: as0) ++ '@' :: r) ++ b =
                        a0 :: ((as0 ++ '@' :: r) ++ b) from by simp] at heq
                      injection heq with h1 h2
                      refine ha0at ?_
                      rw [ha0c, ← h1]
                      exact List.mem_cons_self _ _
                  | cons c x5 =>
                    rw [List.cons_append] at heq
                    injection heq with hceq hr5
                    subst hr5
                    have hcx5last : (c :: x5).getLast?.all reWs = true :=
                      hx4last (by simp)
                    split at h
                    · rename_i m hfind
                      have hm := List.mem_of_find?_eq_some hfind
                      have hmpre : m <+: x5 ++ ((action0 ++ '@' :: r) ++ b) := by
                        have := List.find?_some hfind
                        exact List.isPrefixOf_iff_prefix.mp this
                      have hmall : m.all (fun c => !reWs c) = true :=
                        List.all_eq_true.mpr (fun c hcm => by
                          simp [mutRefs_nonws m hm c hcm])
                      by_cases hx5e : x5 = []
                      · rw [hx5e, List.nil_append] at hmpre h
                        have hmc : m <+: action0 ++ '@' :: r :=
                          all_prefix_append_left hmall hbq hmpre
                        obtain ⟨w2, hw2v⟩ := hmc
                        cases w2 with
                        | nil =>
                          rw [List.append_nil] at hw2v
                          have hat : '@' ∈ m := by
                            rw [hw2v]
                            exact List.mem_append_right _ (List.mem_cons_self _ _)
                          exact absurd hat (mutRefs_no_at m hm)
                        | cons d w3 =>
                          have hdm : ((action0 ++ '@' :: r) ++ b).drop m.length =
                              d :: (w3 ++ b) := by
                            rw [← hw2v]
                            rw [show (m ++ d :: w3) ++ b = m ++ (d :: (w3 ++ b)) from by
                              simp [List.append_assoc]]
                            exact List.drop_left _ _
                          rw [hdm] at h
                          have hdw : reWs d = false := by
                            refine hcmem d ?_
                            rw [← hw2v]
                            exact List.mem_append_right _ (List.mem_cons_self _ _)
                          simp [tailMatch, hdw] at h
                      · have hx5last : x5.getLast?.all reWs = true :=
                          cons_getLast?_all hcx5last hx5e
                        rcases List.prefix_or_prefix_of_prefix hmpre
                          (List.prefix_append x5 _) with hm1 | hm2
                        swap
                        · exfalso
                          obtain ⟨lc, hlc⟩ := getLast?_some_of_ne_nil hx5e
                          have hlcw : reWs lc = true := by
                            rw [hlc] at hx5last
                            simpa using hx5last
                          have hlcm : lc ∈ m := hm2.subset (getLast?_some_mem hlc)
                          have := mutRefs_nonws m hm lc hlcm
                          rw [hlcw] at this
                          exact absurd this (by simp)
                        · obtain ⟨x6, hx6⟩ := hm1
                          have hdm : (x5 ++ ((action0 ++ '@' :: r) ++ b)).drop m.length =
                              x6 ++ ((action0 ++ '@' :: r) ++ b) := by
                            rw [← hx6, List.append_assoc]
                            exact List.drop_left _ _
                          rw [hdm] at h
                          cases x6 with
                          | nil =>
                            rw [List.nil_append] at h
                            cases ha0c : action0 with
                            | nil => exact absurd ha0c ha0
                            | cons a0 as0 =>
                              rw [ha0c] at h
                              rw [show ((a0 :: as0) ++ '@' :: r) ++ b =
                                a0 :: ((as0 ++ '@' :: r) ++ b) from by simp] at h
                              have ha0w : reWs a0 = false := by
                                refine hcmem a0 (List.mem_append_left _ ?_)
                                rw [ha0c]
                                exact List.mem_cons_self _ _
                              simp [tailMatch, ha0w] at h
                          | cons d x7 =>
                            rw [List.cons_append] at h
                            by_cases hdw : reWs d = true
                            · simp only [tailMatch, hdw, if_true] at h
                              simp only [Option.some.injEq, Prod.mk.injEq] at h
                              refine ⟨x7, h.2.symm, ?_, ?_⟩
                              · by_cases hx7e : x7 = []
                                · rw [hx7e]; rfl
                                · have h6 : (d :: x7).getLast?.all reWs = true :=
                                    append_getLast?_all
                                      (by rw [hx6]; exact hx5last) (by simp)
                                  exact cons_getLast?_all h6 hx7e
                              · have hl6 : m.length + (x7.length + 1) = x5.length := by
                                  have := congrArg List.length hx6
                                  rw [List.length_append] at this
                                  simpa using this
                                have := hlen4
                                simp only [List.length_cons] at this
                                omega
                            · simp [tailMatch, hdw] at h
                    · exact absurd h (by simp)
                · cases x4 with
                  | nil =>
                    rw [List.nil_append] at h
                    cases ha0c : action0 with
                    | nil => exact absurd ha0c ha0
                    | cons a0 as0 =>
                      rw [ha0c] at h
                      rw [show ((a0 :: as0) ++ '@' :: r) ++ b =
                        a0 :: ((as0 ++ '@' :: r) ++ b) from by simp] at h
                      have ha0w : reWs a0 = false := by
                        refine hcmem a0 (List.mem_append_left _ ?_)
                        rw [ha0c]
                        exact List.mem_cons_self _ _
                      simp [tailMatch, ha0w] at h
                  | cons c x5 =>
                    rw [List.cons_append] at h
                    by_cases hcw : reWs c = true
                    · simp only [tailMatch, hcw, if_true] at h
                      simp only [Option.some.injEq, Prod.mk.injEq] at h
                      refine ⟨x5, h.2.symm, ?_, ?_⟩
                      · by_cases hx5e : x5 = []
                        · rw [hx5e]; rfl
                        · exact cons_getLast?_all (hx4last (by simp)) hx5e
                      · have := hlen4
                        simp only [List.length_cons] at this
                        omega
                    · simp [tailMatch, hcw] at h
          · exact absurd h (by simp)
    · exact absurd h (by simp)

theorem tryMatch_head_nonws {action version : Text} {c : Char} {cs : Text}
    (hc : reWs c = false) : tryMatch action version (c :: cs) = none := by
  simp only [tryMatch]
  rw [show (c :: cs).takeWhile reWs = [] from by simp [List.takeWhile_cons, hc]]
  simp

theorem tailMatch_emit {stem t0 em rest : Text}
    (h : tailMatch stem t0 = some (em, rest)) :
    (stem ≠ [] → em.head? = stem.head?) ∧
      (rest ≠ [] → em.getLast?.all reWs = true) := by
  cases t0 with
  | nil =>
    simp only [tailMatch, Option.some.injEq, Prod.mk.injEq] at h
    refine ⟨fun _ => by rw [← h.1], fun hne => absurd h.2.symm hne⟩
  | cons d t1 =>
    simp only [tailMatch] at h
    split at h
    · rename_i hd
      simp only [Option.some.injEq, Prod.mk.injEq] at h
      refine ⟨fun hne => by rw [← h.1, head?_append_left hne], fun _ => ?_⟩
      rw [← h.1, List.getLast?_append_of_ne_nil stem (by simp)]
      simp [hd]
    · exact absurd h (by simp)

/-- A successful match starts with the whitespace character at the match
position and, unless it ends the text, its replacement ends with the
re-emitted trailing whitespace character. -/
theorem tryMatch_emit {action version : Text} {c : Char} {cs em rest : Text}
    (h : tryMatch action version (c :: cs) = some (em, rest)) :
    em.head? = some c ∧ (rest ≠ [] → em.getLast?.all reWs = true) := by
  have hcw : reWs c = true := by
    by_contra hcw
    rw [Bool.not_eq_true] at hcw
    rw [tryMatch_head_nonws hcw] at h
    exact absurd h (by simp)
  have hw1 : (c :: cs).takeWhile reWs = c :: cs.takeWhile reWs := by
    simp [List.takeWhile_cons, hcw]
  have hstemhead : ∀ z : Text,
      ((c :: cs).takeWhile reWs ++ "uses:".toList ++ z ++ action ++
        '@' :: version).head? = some c := by
    intro z
    rw [head?_append_left (by
      intro he
      exact absurd he (by
        intro he2
        have := congrArg List.length he2
        simp at this))]
    rw [head?_append_left (by
      intro he
      exact absurd he (by
        intro he2
        have := congrArg List.length he2
        simp at this))]
    rw [head?_append_left (by rw [hw1]; simp)]
    rw [hw1]
    rfl
  simp only [tryMatch] at h
  split at h
  · exact absurd h (by simp)
  · split at h
    · split at h
      · exact absurd h (by simp)
      · split at h
        · split at h
          · split at h
            · rename_i m hfind
              have he := tailMatch_emit h
              refine ⟨?_, he.2⟩
              rw [he.1 (by
                intro he2
                have := congrArg List.head? he2
                rw [hstemhead] at this
                exact absurd this (by simp))]
              exact hstemhead _
            · exact absurd h (by simp)
          · have he := tailMatch_emit h
            refine ⟨?_, he.2⟩
            rw [he.1 (by
              intro he2
              have := congrArg List.head? he2
              rw [hstemhead] at this
              exact absurd this (by simp))]
            exact hstemhead _
        · exact absurd h (by simp)
    · exact absurd h (by simp)

/-- A run of non-whitespace characters at the head is copied verbatim by the
replacement scan: no match can start inside it. -/
theorem pinScan_copy {action version : Text} :
    ∀ (core b : Text), (∀ c ∈ core, reWs c = false) →
    (pinScan action version (core ++ b)).1 = core ++ (pinScan action version b).1 := by
  intro core
  induction core with
  | nil => intro b _; simp
  | cons c cs ih =>
    intro b hmem
    rw [List.cons_append, pinScan_eq_cons,
      tryMatch_head_nonws (hmem c (List.mem_cons_self _ _))]
    show c :: (pinScan action version (cs ++ b)).1 = _
    rw [ih b (fun d hd => hmem d (List.mem_cons_of_mem _ hd))]
    rfl

theorem pinScan_head? {action version : Text} : ∀ (t : Text),
    ((pinScan action version t).1).head? = t.head? := by
  intro t
  cases t with
  | nil => rfl
  | cons c cs =>
    rw [pinScan_eq_cons]
    cases h : tryMatch action version (c :: cs) with
    | some p =>
      obtain ⟨em, rest⟩ := p
      have he := (tryMatch_emit h).1
      show (em ++ (pinScan action version rest).1).head? = some c
      rw [head?_append_left (by
        intro he2
        rw [he2] at he
        exact absurd he (by simp))]
      exact he
    | none => rfl

/-- One replacement pass preserves a whitespace-delimited pinned occurrence
verbatim, and the text after it is scanned independently.  The produced
prefix again ends in whitespace (or is empty together with `x`), so passes
can be chained. -/
theorem pinScan_preserves {action version action0 r : Text}
    (haw : action.all (fun c => !reWs c) = true) (haat : '@' ∉ action)
    (hcall : (action0 ++ '@' :: r).all (fun c => !reWs c) = true)
    (ha0 : action0 ≠ []) (ha0at : '@' ∉ action0) (hrmut : r ∉ mutRefs) :
    ∀ (x b : Text), x.getLast?.all reWs = true → b.head?.all reWs = true →
    ∃ X, (pinScan action version (x ++ ((action0 ++ '@' :: r) ++ b))).1 =
        X ++ ((action0 ++ '@' :: r) ++ (pinScan action version b).1) ∧
      X.getLast?.all reWs = true ∧ (X = [] → x = []) := by
  have hcmem : ∀ c ∈ action0 ++ '@' :: r, reWs c = false := by
    intro c hc
    have := List.all_eq_true.mp hcall c hc
    simpa using this
  have hcne : (action0 ++ '@' :: r) ≠ [] := by
    cases action0 with
    | nil => exact absurd rfl ha0
    | cons a as => simp
  have main : ∀ (n : Nat) (x b : Text), x.length ≤ n →
      x.getLast?.all reWs = true → b.head?.all reWs = true →
      ∃ X, (pinScan action version (x ++ ((action0 ++ '@' :: r) ++ b))).1 =
          X ++ ((action0 ++ '@' :: r) ++ (pinScan action version b).1) ∧
        X.getLast?.all reWs = true ∧ (X = [] → x = []) := by
    intro n
    induction n using Nat.strong_induction_on with
    | _ n ih =>
      intro x b hlen hxl hbh
      cases x with
      | nil =>
        refine ⟨[], ?_, rfl, fun _ => rfl⟩
        rw [List.nil_append, List.nil_append, pinScan_copy _ _ hcmem]
      | cons c cs =>
        cases hm : tryMatch action version ((c :: cs) ++ ((action0 ++ '@' :: r) ++ b)) with
        | none =>
          rw [List.cons_append] at hm
          have hcsl : cs.getLast?.all reWs = true := by
            by_cases hcse : cs = []
            · rw [hcse]; rfl
            · exact cons_getLast?_all hxl hcse
          have hlt : cs.length < n := by
            simp only [List.length_cons] at hlen
            omega
          obtain ⟨X', hX1, hX2, hX3⟩ := ih cs.length hlt cs b le_rfl hcsl hbh
          refine ⟨c :: X', ?_, ?_, by simp⟩
          · rw [List.cons_append, pinScan_eq_cons, hm]
            show c :: (pinScan action version (cs ++ ((action0 ++ '@' :: r) ++ b))).1 = _
            rw [hX1]
            rfl
          · by_cases hX'e : X' = []
            · have hcse := hX3 hX'e
              rw [hX'e]
              rw [hcse] at hxl
              exact hxl
            · have : (c :: X') = [c] ++ X' := rfl
              rw [this, List.getLast?_append_of_ne_nil _ hX'e]
              exact hX2
        | some p =>
          obtain ⟨em, rest⟩ := p
          obtain ⟨x', hrest, hx'l, hx'len⟩ :=
            tryMatch_bound haw haat hcall ha0 ha0at hrmut hxl hbh hm
          rw [List.cons_append] at hm
          have hem := tryMatch_emit hm
          have hlt : x'.length < n := by
            simp only [List.length_cons] at hlen hx'len
            omega
          obtain ⟨X', hX1, hX2, hX3⟩ := ih x'.length hlt x' b le_rfl hx'l hbh
          refine ⟨em ++ X', ?_, ?_, ?_⟩
          · rw [List.cons_append, pinScan_eq_cons, hm]
            show em ++ (pinScan action version rest).1 = _
            rw [hrest, hX1]
            simp [List.append_assoc]
          · by_cases hX'e : X' = []
            · rw [hX'e, List.append_nil]
              refine hem.2 ?_
              rw [hrest]
              intro he
              have h2 := (List.append_eq_nil.mp he).2
              exact hcne (List.append_eq_nil.mp h2).1
            · rw [List.getLast?_append_of_ne_nil em hX'e]
              exact hX2
          · intro he
            exfalso
            have hem1 := hem.1
            rw [(List.append_eq_nil.mp he).1] at hem1
            exact absurd hem1 (by simp)
  exact fun x b hxl hbh => main x.length x b le_rfl hxl hbh

theorem pins_props : ∀ p ∈ pins, p.1.all (fun c => !reWs c) = true ∧ '@' ∉ p.1 := by
  decide

/-- The full pin table preserves a whitespace-delimited pinned occurrence
`<action0>@<r>` (with `r` not a mutable ref) verbatim as an infix of the
output, on every input. -/
theorem pinCommonActions_preserves {action0 r : Text}
    (hcall : (action0 ++ '@' :: r).all (fun c => !reWs c) = true)
    (ha0 : action0 ≠ []) (ha0at : '@' ∉ action0) (hrmut : r ∉ mutRefs)
    (x b : Text) (hxl : x.getLast?.all reWs = true) (hbh : b.head?.all reWs = true) :
    ∃ X B, (pinCommonActions (x ++ ((action0 ++ '@' :: r) ++ b))).1 =
      X ++ ((action0 ++ '@' :: r) ++ B) := by
  have hgen : ∀ (ps : List (Text × Text)),
      (∀ p ∈ ps, p.1.all (fun c => !reWs c) = true ∧ '@' ∉ p.1) →
      ∀ (acc : Text × Bool) (X B : Text),
      acc.1 = X ++ ((action0 ++ '@' :: r) ++ B) →
      X.getLast?.all reWs = true → B.head?.all reWs = true →
      ∃ X' B', (ps.foldl (fun acc p =>
          let s := pinScan p.1 p.2 acc.1
          if s.2 then (s.1, true) else acc) acc).1 =
        X' ++ ((action0 ++ '@' :: r) ++ B') := by
    intro ps
    induction ps with
    | nil => exact fun _ acc X B h1 _ _ => ⟨X, B, h1⟩
    | cons p ps ih =>
      intro hps acc X B h1 h2 h3
      have hp := hps p (List.mem_cons_self _ _)
      have hstep : (p :: ps).foldl (fun acc p =>
          let s := pinScan p.1 p.2 acc.1
          if s.2 then (s.1, true) else acc) acc =
        ps.foldl (fun acc p =>
          let s := pinScan p.1 p.2 acc.1
          if s.2 then (s.1, true) else acc)
          (if (pinScan p.1 p.2 acc.1).2 then ((pinScan p.1 p.2 acc.1).1, true)
            else acc) := rfl
      rw [hstep]
      by_cases hflag : (pinScan p.1 p.2 acc.1).2 = true
      · obtain ⟨X2, hX2eq, hX2l, _⟩ :=
          pinScan_preserves hp.1 hp.2 hcall ha0 ha0at hrmut X B h2 h3
        rw [if_pos hflag]
        refine ih (fun q hq => hps q (List.mem_cons_of_mem _ hq))
          ((pinScan p.1 p.2 acc.1).1, true) X2 ((pinScan p.1 p.2 B).1) ?_ hX2l ?_
        · show (pinScan p.1 p.2 acc.1).1 = _
          rw [h1]
          exact hX2eq
        · rw [pinScan_head?]
          exact h3
      · rw [if_neg hflag]
        exact ih (fun q hq => hps q (List.mem_cons_of_mem _ hq)) acc X B h1 h2 h3
  exact hgen pins pins_props (x ++ ((action0 ++ '@' :: r) ++ b), false) x b rfl hxl hbh

theorem tryMatch_pinned_none {action version w1 w2 r rest : Text}
    (hw1 : w1 ≠ []) (hw1w : w1.all reWs = true)
    (hw2 : w2 ≠ []) (hw2w : w2.all reWs = true)
    (hact : action.head?.all (fun c => !reWs c) = true)
    (hrw : r.all (fun c => !reWs c) = true)
    (hbound : rest.head?.all reWs = true)
    (hmut : r ∉ mutRefs) :
    tryMatch action version
      (w1 ++ ("uses:".toList ++ (w2 ++ (action ++ '@' :: (r ++ rest))))) = none := by
  have hw1e : w1.isEmpty = false := by
    cases w1 with
    | nil => exact absurd rfl hw1
    | cons _ _ => rfl
  have hw2e : w2.isEmpty = false := by
    cases w2 with
    | nil => exact absurd rfl hw2
    | cons _ _ => rfl
  have huses_head : ∀ c : Char,
      ("uses:".toList ++ (w2 ++ (action ++ '@' :: (r ++ rest)))).head? = some c →
      reWs c = false := by
    intro c hc
    have h0 : ("uses:".toList ++ (w2 ++ (action ++ '@' :: (r ++ rest)))).head? =
        some 'u' := rfl
    rw [h0] at hc
    injection hc with hc
    rw [← hc]
    decide
  have h1 := takeWhile_append_all w1 ("uses:".toList ++ (w2 ++ (action ++ '@' :: (r ++ rest))))
    (fun c hc => (List.all_eq_true.mp hw1w) c hc) huses_head
  have hZhead : ∀ c : Char, (action ++ '@' :: (r ++ rest)).head? = some c →
      reWs c = false := by
    intro c hc
    cases action with
    | nil =>
      have h0 : (([] : Text) ++ '@' :: (r ++ rest)).head? = some '@' := rfl
      rw [h0] at hc
      injection hc with hc
      rw [← hc]
      decide
    | cons a as =>
      have h0 : ((a :: as) ++ '@' :: (r ++ rest)).head? = some a := rfl
      rw [h0] at hc
      injection hc with hc
      have := hact
      simp only [List.head?, Option.all] at this
      rw [← hc]
      simpa using this
  have h2 := takeWhile_append_all w2 (action ++ '@' :: (r ++ rest))
    (fun c hc => (List.all_eq_true.mp hw2w) c hc) hZhead
  have e1 : tryMatch action version
      (w1 ++ ("uses:".toList ++ (w2 ++ (action ++ '@' :: (r ++ rest))))) =
      match mutRefs.find? (fun m => m.isPrefixOf (r ++ rest)) with
      | some m =>
        tailMatch (w1 ++ "uses:".toList ++ w2 ++ action ++ '@' :: version)
          ((r ++ rest).drop m.length)
      | none => none := by
    simp only [tryMatch]
    rw [h1.1, h1.2, hw1e]
    rw [if_neg (by simp)]
    rw [if_pos (isPrefixOf_self_append "uses:".toList (w2 ++ (action ++ '@' :: (r ++ rest))))]
    rw [show ("uses:".toList ++ (w2 ++ (action ++ '@' :: (r ++ rest)))).drop 5 =
      w2 ++ (action ++ '@' :: (r ++ rest)) from rfl]
    rw [h2.1, h2.2, hw2e]
    rw [if_neg (by simp)]
    rw [if_pos (isPrefixOf_self_append action ('@' :: (r ++ rest)))]
    rw [List.drop_left]
    rfl
  rw [e1]
  cases hfind : mutRefs.find? (fun m => m.isPrefixOf (r ++ rest)) with
  | none => rfl
  | some m =>
    show tailMatch (w1 ++ "uses:".toList ++ w2 ++ action ++ '@' :: version)
      ((r ++ rest).drop m.length) = none
    have hm : m ∈ mutRefs := List.mem_of_find?_eq_some hfind
    have hpref : m <+: (r ++ rest) := by
      have := List.find?_some hfind
      exact List.isPrefixOf_iff_prefix.mp this
    rcases Nat.lt_trichotomy m.length r.length with hlt | heq | hgt
    · have hdrop : (r ++ rest).drop m.length = r.drop m.length ++ rest :=
        List.drop_append_of_le_length (Nat.le_of_lt hlt)
      rw [hdrop]
      cases hd : r.drop m.length with
      | nil =>
        have := congrArg List.length hd
        simp [List.length_drop] at this
        omega
      | cons d ds =>
        have hdr : d ∈ r := by
          have hmem : d ∈ r.drop m.length := by
            rw [hd]
            exact List.mem_cons_self _ _
          exact (List.drop_sublist _ _).subset hmem
        have hdw : reWs d = false := by
          have := (List.all_eq_true.mp hrw) d hdr
          simpa using this
        simp [tailMatch, hdw]
    · have hmr : m = r := by
        have h3 := List.prefix_iff_eq_take.mp hpref
        rw [List.take_append_of_le_length (Nat.le_of_eq heq)] at h3
        rw [h3, heq, List.take_length]
      exact absurd (hmr ▸ hm) hmut
    · cases hrest : rest with
      | nil =>
        have hlen := hpref.length_le
        rw [hrest] at hlen
        simp at hlen
        omega
      | cons c cs2 =>
        have hctw : reWs c = true := by
          rw [hrest] at hbound
          simpa [Option.all] using hbound
        have hcm : c ∈ m := by
          have h3 := List.prefix_iff_eq_take.mp hpref
          rw [List.take_append_eq_append_take] at h3
          rw [List.take_of_length_le (Nat.le_of_lt hgt)] at h3
          rw [h3]
          apply List.mem_append.mpr
          right
          rw [hrest]
          cases hk : m.length - r.length with
          | zero => omega
          | succ k =>
            rw [List.take_succ_cons]
            exact List.mem_cons_self _ _
        have := mutRefs_nonws m hm c hcm
        rw [hctw] at this
        simp at this

theorem pinScanF_no_match {action version : Text} :
    ∀ fuel (t : Text), (∀ s ∈ t.tails, tryMatch action version s = none) →
      pinScanF action version fuel t = (t, false) := by
  intro fuel
  induction fuel with
  | zero =>
    intro t h
    cases t <;> rfl
  | succ f ih =>
    intro t h
    cases t with
    | nil => rfl
    | cons c cs =>
      have h0 : tryMatch action version (c :: cs) = none := by
        apply h
        rw [List.tails_cons]
        exact List.mem_cons_self _ _
      have ih2 := ih cs (fun s hs => h s (by rw [List.tails_cons]; exact List.mem_cons_of_mem _ hs))
      simp only [pinScanF, h0, ih2]

theorem pinScan_no_match {action version : Text} {t : Text}
    (h : ∀ s ∈ t.tails, tryMatch action version s = none) :
    pinScan action version t = (t, false) :=
  pinScanF_no_match t.length t h

theorem pinCommonActions_no_match {t : Text}
    (h : (pins.all fun p => t.tails.all fun s => (tryMatch p.1 p.2 s).isNone) = true) :
    pinCommonActions t = (t, false) := by
  have hall : ∀ p ∈ pins, pinScan p.1 p.2 t = (t, false) := by
    intro p hp
    have h2 := (List.all_eq_true.mp h) p hp
    apply pinScan_no_match
    intro s hs
    have hs2 := (List.all_eq_true.mp h2) s hs
    simpa [Option.isNone_iff_eq_none] using hs2
  unfold pinCommonActions
  suffices hgen : ∀ ps : List (Text × Text),
      (∀ p ∈ ps, pinScan p.1 p.2 t = (t, false)) →
      ps.foldl (fun acc p =>
        let r := pinScan p.1 p.2 acc.1
        if r.2 then (r.1, true) else acc) (t, false) = (t, false) from
    hgen pins hall
  intro ps hps
  induction ps with
  | nil => rfl
  | cons p ps ih =>
    simp only [List.foldl_cons]
    have hp : pinScan p.1 p.2 t = (t, false) := hps p (List.mem_cons_self _ _)
    rw [hp]
    show List.foldl _ ((t, false) : Text × Bool) ps = ((t, false) : Text × Bool)
    exact ih (fun q hq => hps q (List.mem_cons_of_mem _ hq))

/-- C4: the pinning transformation never rewrites an already non-mutably
pinned reference.  First, its matcher never fires on an occurrence
`uses: <action>@<r>` whose ref `r` is a whitespace-free token other than
`main`, `master`, `HEAD` or `latest`.  Second, a text on which no matcher
fires at any position is returned character for character unchanged with
`changed = false`.  Third, on every input — including texts the fixer does
rewrite — a whitespace-delimited pinned reference `<action0>@<r>` with
`r` not a mutable ref survives character for character as a contiguous
infix of the `pinCommonActions` output. -/
theorem pin_never_rewrites_pinned :
    (∀ action version w1 w2 r rest : Text,
      w1 ≠ [] → w1.all reWs = true → w2 ≠ [] → w2.all reWs = true →
      action.head?.all (fun c => !reWs c) = true →
      r.all (fun c => !reWs c) = true → rest.head?.all reWs = true →
      r ∉ mutRefs →
      tryMatch action version
        (w1 ++ ("uses:".toList ++ (w2 ++ (action ++ '@' :: (r ++ rest))))) = none) ∧
    (∀ t : Text,
      (pins.all fun p => t.tails.all fun s => (tryMatch p.1 p.2 s).isNone) = true →
      pinCommonActions t = (t, false)) ∧
    (∀ x action0 r b : Text,
      x.getLast?.all reWs = true → b.head?.all reWs = true →
      (action0 ++ '@' :: r).all (fun c => !reWs c) = true →
      action0 ≠ [] → '@' ∉ action0 → r ∉ mutRefs →
      ∃ X B, (pinCommonActions (x ++ ((action0 ++ '@' :: r) ++ b))).1 =
        X ++ ((action0 ++ '@' :: r) ++ B)) :=
  ⟨fun _ _ _ _ _ _ h1 h2 h3 h4 h5 h6 h7 h8 =>
    tryMatch_pinned_none h1 h2 h3 h4 h5 h6 h7 h8,
   fun _ h => pinCommonActions_no_match h,
   fun x _ _ b hxl hbh hcall ha0 ha0at hrmut =>
    pinCommonActions_preserves hcall ha0 ha0at hrmut x b hxl hbh⟩

/-- C4 witness: `actions/checkout@v3` is not matched; a file whose only
`uses:` reference is pinned to `v3` is left unchanged; and a file that the
fixer does rewrite (its unpinned `actions/checkout` gets pinned, so
`changed = true`) still carries the pinned `docker/login-action@abc123`
verbatim as an infix of the output. -/
theorem pin_never_rewrites_pinned_witness :
    tryMatch "actions/checkout".toList "v4".toList
      (" ".toList ++ ("uses:".toList ++ (" ".toList ++ ("actions/checkout".toList ++
        '@' :: ("v3".toList ++ "\n".toList))))) = none ∧
    pinCommonActions "  uses: actions/checkout@v3".toList =
      ("  uses: actions/checkout@v3".toList, false) ∧
    (pinCommonActions ("jobs:\n  uses: actions/checkout\n  uses: ".toList ++
        (("docker/login-action".toList ++ '@' :: "abc123".toList) ++ "\n".toList))).2 =
      true ∧
    ∃ X B, (pinCommonActions ("jobs:\n  uses: actions/checkout\n  uses: ".toList ++
        (("docker/login-action".toList ++ '@' :: "abc123".toList) ++ "\n".toList))).1 =
      X ++ (("docker/login-action".toList ++ '@' :: "abc123".toList) ++ B) :=
  ⟨pin_never_rewrites_pinned.1 "actions/checkout".toList "v4".toList
      " ".toList " ".toList "v3".toList "\n".toList
      (by decide) (by decide) (by decide) (by decide)
      (by decide) (by decide) (by decide) (by decide),
   pin_never_rewrites_pinned.2.1 _ (by decide),
   by decide,
   pin_never_rewrites_pinned.2.2 _ _ _ _ (by decide) (by decide) (by decide)
     (by decide) (by decide) (by decide)⟩

/-- C6: in both extraction modes, a reported unpinned action reference is
never a local or containerized reference (prefixed `./`, `../` or
`docker://`), regardless of whether it carries an `@ref` suffix. -/
theorem local_actions_never_unpinned :
    (∀ root : List (Text × Yaml), ∀ ju ∈ unpinnedPairs root, isLocalAction ju.2 = false) ∧
    (∀ t : Text, ∀ ur ∈ fallbackUnpinnedPairs t, isLocalAction ur.1 = false) := by
  constructor
  · intro root ju hju
    unfold unpinnedPairs at hju
    split at hju
    · rcases List.mem_flatMap.mp hju with ⟨jv, hjv, hju2⟩
      split at hju2
      · split at hju2
        · rcases List.mem_flatMap.mp hju2 with ⟨sv, hsv, hju3⟩
          split at hju3
          · split at hju3
            · split at hju3
              · simp at hju3
              · split at hju3
                · rename_i hlocal _
                  simp only [List.mem_singleton] at hju3
                  subst hju3
                  simpa using hlocal
                · simp at hju3
            · simp at hju3
          · simp at hju3
        · simp at hju2
      · simp at hju2
    · simp at hju
  · intro t ur hur
    unfold fallbackUnpinnedPairs at hur
    rcases List.mem_filterMap.mp hur with ⟨p, hp, hpe⟩
    by_cases hl : isLocalAction p.1 = true
    · rw [if_pos hl] at hpe
      simp at hpe
    · rw [if_neg hl] at hpe
      rw [Bool.not_eq_true] at hl
      split at hpe
      · injection hpe with hpe
        rw [← hpe]
        exact hl
      · split at hpe
        · injection hpe with hpe
          rw [← hpe]
          exact hl
        · simp at hpe

/-- C6 witness: a flagged non-local reference in each mode. -/
theorem local_actions_never_unpinned_witness :
    isLocalAction ("build".toList, "actions/checkout".toList).2 = false ∧
    isLocalAction ("actions/checkout".toList, ([] : Text)).1 = false :=
  ⟨local_actions_never_unpinned.1
      [("jobs".toList, Yaml.map [("build".toList, Yaml.map [("steps".toList,
        Yaml.list [Yaml.map [("uses".toList, Yaml.str "actions/checkout".toList)]])])])]
      _ (by decide),
   local_actions_never_unpinned.2 "  uses: actions/checkout\n".toList _ (by decide)⟩

/-- C7 counterexample: a well-formed document whose `on` value is the YAML
list `[push, push]` produces a structured-mode triggers list with a duplicate
entry, refuting the claim that the triggers collection never contains
duplicates. -/
theorem structured_triggers_duplicate :
    ¬ ((analyzeWorkflowYaml
      [("on".toList, Yaml.list [Yaml.str "push".toList, Yaml.str "push".toList])]).Triggers).Nodup := by
  decide

theorem sortStrings_nodup {l : List Text} (h : l.Nodup) : (sortStrings l).Nodup :=
  ((sortStrings_perm l).nodup_iff).mpr h

theorem filterMap_guard_sublist {α : Type} (f : α → Option α)
    (hf : ∀ a, f a = none ∨ f a = some a) :
    ∀ l : List α, List.Sublist (l.filterMap f) l := by
  intro l
  induction l with
  | nil => simp
  | cons a as ih =>
    rw [List.filterMap_cons]
    rcases hf a with h | h
    · rw [h]
      exact ih.cons a
    · rw [h]
      exact ih.cons₂ a

/-- C7 amended: fallback-mode triggers and runners and structured-mode runners
are always duplicate-free; structured-mode triggers are duplicate-free
whenever the `on` mapping's keys are (as Go map keys always are), but a
list-valued `on` is passed through without deduplication (see the
counterexample); and the fallback unpinned list is an order-preserving
subsequence of the `uses:` matches in document order. -/
theorem extraction_dedup_invariants :
    (∀ t : Text, (fallbackTriggers t).Nodup) ∧
    (∀ t : Text, (fallbackRunners t).Nodup) ∧
    (∀ root : List (Text × Yaml), (extractRunners root).Nodup) ∧
    (∀ es : List (Text × Yaml), (es.map Prod.fst).Nodup →
      (extractTriggers (some (Yaml.map es))).Nodup) ∧
    (∀ t : Text, List.Sublist (fallbackUnpinnedPairs t) (usesMatches t)) := by
  refine ⟨?_, ?_, ?_, ?_, ?_⟩
  · intro t
    apply sortStrings_nodup
    exact List.Nodup.filter _ (by decide)
  · intro t
    exact sortStrings_nodup (List.nodup_dedup _)
  · intro root
    unfold extractRunners
    split
    · exact sortStrings_nodup (List.nodup_dedup _)
    · exact List.nodup_nil
  · intro es h
    exact sortStrings_nodup h
  · intro t
    unfold fallbackUnpinnedPairs
    apply filterMap_guard_sublist
    intro p
    by_cases h1 : isLocalAction p.1 = true
    · rw [if_pos h1]
      left
      rfl
    · rw [if_neg h1]
      by_cases h2 : p.2.isEmpty = true
      · rw [if_pos h2]
        right
        rfl
      · rw [if_neg h2]
        by_cases h3 : unpinnedRe (p.1 ++ '@' :: p.2) = true
        · rw [if_pos h3]
          right
          rfl
        · rw [if_neg h3]
          left
          rfl

/-- C7 amended witness: the dedup and order facts evaluated at concrete
inputs, including a mapping-valued `on` with distinct keys. -/
theorem extraction_dedup_invariants_witness :
    (extractTriggers (some (Yaml.map
      [("push".toList, Yaml.null), ("schedule".toList, Yaml.null)]))).Nodup :=
  extraction_dedup_invariants.2.2.2.1
    [("push".toList, Yaml.null), ("schedule".toList, Yaml.null)] (by decide)

/-- C8 counterexample: a workflow whose schedules list holds six copies of a
single cron expression has one distinct schedule yet receives the
consolidation hint, refuting the claim that the hint fires exactly when more
than 5 distinct schedules exist. -/
theorem schedule_hint_multiplicity :
    ¬ ((hintSchedules ∈ detectDeprecated
        { File := [], Name := [], Triggers := [],
          Schedules := List.replicate 6 "0 0 * * *".toList, Runners := [],
          HasConcurrency := false, UsesUnpinnedAction := false,
          UnpinnedDetails := [], DeprecatedHints := [], Recommendations := [] }) ↔
      5 < (List.replicate 6 "0 0 * * *".toList).dedup.length) := by
  decide

theorem runnerHints_mem {w : WorkflowReport} {x : Text}
    (hx : x ∈ w.Runners.flatMap fun r =>
      (if r = "ubuntu-22.04".toList then [hintUbuntu] else []) ++
      (if r = "macos-12".toList then [hintMacos] else []) ++
      (if r = "self-hosted".toList then [hintSelfHosted] else [])) :
    x = hintUbuntu ∨ x = hintMacos ∨ x = hintSelfHosted := by
  rcases List.mem_flatMap.mp hx with ⟨r, hr, hxr⟩
  rcases List.mem_append.mp hxr with h | h
  · rcases List.mem_append.mp h with h2 | h2
    · split at h2
      · simp only [List.mem_singleton] at h2
        exact Or.inl h2
      · simp at h2
    · split at h2
      · simp only [List.mem_singleton] at h2
        exact Or.inr (Or.inl h2)
      · simp at h2
  · split at h
    · simp only [List.mem_singleton] at h
      exact Or.inr (Or.inr h)
    · simp at h

/-- C8 amended: the consolidation hint is emitted exactly when the schedules
list has more than five entries counted with multiplicity, and the
overlap-review hint exactly when the triggers list has more than five entries
with multiplicity; repeated cron expressions or trigger names each count. -/
theorem deprecated_hints_thresholds (w : WorkflowReport) :
    (hintSchedules ∈ detectDeprecated w ↔ 5 < w.Schedules.length) ∧
    (hintTriggers ∈ detectDeprecated w ↔ 5 < w.Triggers.length) := by
  unfold detectDeprecated
  constructor
  · constructor
    · intro h
      rcases List.mem_append.mp h with h1 | h1
      · rcases List.mem_append.mp h1 with h2 | h2
        · rcases runnerHints_mem h2 with h3 | h3 | h3 <;> exact absurd h3 (by decide)
        · by_cases hs : 5 < w.Schedules.length
          · exact hs
          · rw [if_neg hs] at h2
            simp at h2
      · by_cases ht : 5 < w.Triggers.length
        · rw [if_pos ht] at h1
          simp only [List.mem_singleton] at h1
          exact absurd h1 (by decide)
        · rw [if_neg ht] at h1
          simp at h1
    · intro h
      apply List.mem_append.mpr
      left
      apply List.mem_append.mpr
      right
      rw [if_pos h]
      exact List.mem_cons_self _ _
  · constructor
    · intro h
      rcases List.mem_append.mp h with h1 | h1
      · rcases List.mem_append.mp h1 with h2 | h2
        · rcases runnerHints_mem h2 with h3 | h3 | h3 <;> exact absurd h3 (by decide)
        · by_cases hs : 5 < w.Schedules.length
          · rw [if_pos hs] at h2
            simp only [List.mem_singleton] at h2
            exact absurd h2 (by decide)
          · rw [if_neg hs] at h2
            simp at h2
      · by_cases ht : 5 < w.Triggers.length
        · exact ht
        · rw [if_neg ht] at h1
          simp at h1
    · intro h
      apply List.mem_append.mpr
      right
      rw [if_pos h]
      exact List.mem_cons_self _ _

/-- C8 amended witness: a workflow with six schedule entries receives the
consolidation hint. -/
theorem deprecated_hints_thresholds_witness :
    hintSchedules ∈ detectDeprecated
      { File := [], Name := [], Triggers := [],
        Schedules := List.replicate 6 "0 0 * * *".toList, Runners := [],
        HasConcurrency := false, UsesUnpinnedAction := false,
        UnpinnedDetails := [], DeprecatedHints := [], Recommendations := [] } :=
  (deprecated_hints_thresholds _).1.mpr (by decide)

/-- Modelled from the claim (C5), for refutation: insert the template
immediately after the line containing the top-level `name:` key (a line that
begins with `name:` at zero indentation), otherwise immediately before the
top-level `on:` key's line, otherwise return the text unchanged. -/
def claimConcurrencyInsert (content : Text) : Text × Bool :=
  let lines := splitLines content
  match findLineIdx (fun l => "name:".toList.isPrefixOf l) lines with
  | some i =>
    (joinLines (lines.take (i + 1) ++ concurrencyBlock ++ lines.drop (i + 1)), true)
  | none =>
    match findLineIdx (fun l => "on:".toList.isPrefixOf l) lines with
    | some i => (joinLines (lines.take i ++ concurrencyBlock ++ lines.drop i), true)
    | none => (content, false)

/-- C5 counterexample: this document has no top-level `name:` key and a
top-level `on:` key, so the claim requires insertion before the `on:` line;
the code instead inserts after the indented step-level `name:` line,
producing a different text. -/
theorem concurrency_insert_not_top_level :
    addConcurrencyBlock
      "jobs:\n  build:\n    steps:\n      - run: x\n        name: co\n      - run: y\non: push".toList ≠
    claimConcurrencyInsert
      "jobs:\n  build:\n    steps:\n      - run: x\n        name: co\n      - run: y\non: push".toList := by
  decide

theorem findLineIdx_eq_findIdx? (p : Text → Bool) (ls : List Text) :
    findLineIdx p ls = List.findIdx? p ls := by
  induction ls with
  | nil => rfl
  | cons l ls ih =>
    rw [List.findIdx?_cons, List.findIdx?_succ]
    simp only [findLineIdx]
    split
    · rfl
    · rw [← ih]
      cases hm : findLineIdx p ls <;> rfl

/-- C5 amended: the block is inserted immediately after the first line whose
trimmed form starts with `name:` (at any indentation, not only top level);
otherwise immediately before the first line whose trimmed form starts with
`on:` (any indentation); otherwise the text is returned unchanged with
`changed = false`; and the inserted block is exactly the fixed four-line
template. -/
theorem addConcurrencyBlock_spec (t : Text) :
    addConcurrencyBlock t =
      match List.findIdx? (fun l => "name:".toList.isPrefixOf (trimSpace l)) (splitLines t) with
      | some i =>
        (joinLines ((splitLines t).take (i + 1) ++ concurrencyBlock ++
          (splitLines t).drop (i + 1)), true)
      | none =>
        match List.findIdx? (fun l => "on:".toList.isPrefixOf (trimSpace l)) (splitLines t) with
        | some i =>
          (joinLines ((splitLines t).take i ++ concurrencyBlock ++
            (splitLines t).drop i), true)
        | none => (t, false) := by
  rw [← findLineIdx_eq_findIdx?, ← findLineIdx_eq_findIdx?]
  cases hn : findLineIdx (fun l => "name:".toList.isPrefixOf (trimSpace l)) (splitLines t) with
  | some i => rw [addConcurrencyBlock_name hn]
  | none =>
    cases ho : findLineIdx (fun l => "on:".toList.isPrefixOf (trimSpace l)) (splitLines t) with
    | some i => rw [addConcurrencyBlock_on hn ho]
    | none => rw [addConcurrencyBlock_none hn ho]

/-- The document used to separate structured- and fallback-mode extraction:
`on: [push]` with one job. -/
def exampleDoc : List (Text × Yaml) :=
  [("on".toList, Yaml.list [Yaml.str "push".toList]),
   ("jobs".toList, Yaml.map [("build".toList, Yaml.map
     [("runs-on".toList, Yaml.str "ubuntu-latest".toList),
      ("steps".toList, Yaml.list
        [Yaml.map [("uses".toList, Yaml.str "actions/checkout".toList)]])])])]

/-- C1 counterexample: `exampleDoc` is well formed (its block rendering parses
back to it), but structured-mode extraction reports triggers `[push]` and
runners `[ubuntu-latest]` while fallback-mode extraction of the same rendered
text reports no triggers (the `- push` list item is not a `push:` key line),
misreads `push` as a runner via the list-item pattern, and formats the
unpinned report differently, so the claimed identity of the extracted facts
fails. -/
theorem structured_fallback_disagree :
    ¬ ((analyzeWorkflowYaml exampleDoc).Triggers =
        (analyzeWorkflowTextFallback (renderDoc 10 exampleDoc)).Triggers ∧
       (analyzeWorkflowYaml exampleDoc).Runners =
        (analyzeWorkflowTextFallback (renderDoc 10 exampleDoc)).Runners ∧
       (analyzeWorkflowYaml exampleDoc).HasConcurrency =
        (analyzeWorkflowTextFallback (renderDoc 10 exampleDoc)).HasConcurrency ∧
       (analyzeWorkflowYaml exampleDoc).UnpinnedDetails =
        (analyzeWorkflowTextFallback (renderDoc 10 exampleDoc)).UnpinnedDetails) := by
  decide

theorem lookupKey_mem {es : List (Text × Yaml)} {k : Text} {v : Yaml}
    (h : lookupKey es k = some v) : (k, v) ∈ es := by
  induction es with
  | nil => simp [lookupKey] at h
  | cons e rest ih =>
    obtain ⟨k2, v2⟩ := e
    unfold lookupKey at h
    split at h
    · rename_i heq
      injection h with h
      rw [← heq, ← h]
      exact List.mem_cons_self _ _
    · exact List.mem_cons_of_mem _ (ih h)

theorem findIdx?_append_first {p : Char → Bool} (u : Text) (c : Char) (x : Text)
    (hu : ∀ a ∈ u, p a = false) (hc : p c = true) :
    List.findIdx? p (u ++ c :: x) = some u.length := by
  induction u with
  | nil => simp [List.findIdx?_cons, hc]
  | cons a as ih =>
    have ha := hu a (List.mem_cons_self _ _)
    rw [List.cons_append, List.findIdx?_cons, List.findIdx?_succ]
    rw [if_neg (by simp [ha])]
    rw [ih (fun b hb => hu b (List.mem_cons_of_mem _ hb))]
    rfl

theorem trimRight_append_keep {p : Char → Bool} (a b : Text)
    (ha : ∀ c, a.reverse.head? = some c → p c = false) :
    trimRight p (a ++ b) = a ++ trimRight p b := by
  unfold trimRight
  rw [List.reverse_append, List.dropWhile_append]
  by_cases hb : (b.reverse.dropWhile p).isEmpty = true
  · rw [if_pos hb]
    have hdw : a.reverse.dropWhile p = a.reverse := by
      cases har : a.reverse with
      | nil => rfl
      | cons c cs =>
        rw [List.dropWhile_cons, if_neg]
        rw [ha c (by rw [har]; rfl)]
        simp
    rw [hdw]
    rw [List.isEmpty_iff.mp hb]
    simp
  · rw [if_neg hb]
    rw [List.reverse_append]
    simp

theorem lineConc_keyline (n : Nat) (tail : Text) :
    lineConc (indSp n ++ "concurrency".toList ++ ':' :: tail) = true := by
  have hd : (indSp n ++ "concurrency".toList ++ ':' :: tail).dropWhile goSpace =
      "concurrency".toList ++ ':' :: tail := by
    rw [List.append_assoc]
    exact (takeWhile_append_all (indSp n) ("concurrency".toList ++ ':' :: tail)
      (fun c hc => by
        rw [(List.mem_replicate.mp hc).2]
        rfl)
      (fun c hc => by
        injection hc with hc
        rw [← hc]
        rfl)).2
  have htrim : trimSpace (indSp n ++ "concurrency".toList ++ ':' :: tail) =
      ("concurrency".toList ++ [':']) ++ trimRight goSpace tail := by
    unfold trimSpace
    rw [hd, List.append_cons "concurrency".toList ':' tail]
    exact trimRight_append_keep _ _ (fun c hc => by
      injection hc with hc
      rw [← hc]
      rfl)
  unfold lineConc
  rw [htrim]
  rw [if_neg (by simp)]
  rw [if_neg (by rw [show (("concurrency".toList ++ [':']) ++ trimRight goSpace tail) =
    'c' :: ("oncurrency".toList ++ [':'] ++ trimRight goSpace tail) from rfl]; simp [List.isPrefixOf])]
  rw [if_pos (by
    rw [List.append_assoc]
    exact isPrefixOf_self_append "concurrency".toList ([':'] ++ trimRight goSpace tail))]
  rw [List.append_assoc, show ([':'] ++ trimRight goSpace tail) = ':' :: trimRight goSpace tail from rfl]
  rw [findIdx?_append_first "concurrency".toList ':' (trimRight goSpace tail)
    (by decide) (by decide)]
  rw [show ("concurrency".toList).length = 11 from rfl]
  show (trimSpace (List.take 11 ("concurrency".toList ++ ':' :: trimRight goSpace tail)) ==
    "concurrency".toList) = true
  rw [show List.take 11 ("concurrency".toList ++ ':' :: trimRight goSpace tail) =
    List.take 11 "concurrency".toList from List.take_append_of_le_length (by decide)]
  decide

theorem renderEntry_line {fuel : Nat} {es : List (Text × Yaml)} {k : Text} {v : Yaml}
    (h : (k, v) ∈ es) (ind : Nat) :
    ∃ tail, (indSp ind ++ k ++ ':' :: tail) ∈
      renderChildrenF (fuel + 1) (Yaml.map es) ind := by
  cases v with
  | str s =>
    exact ⟨' ' :: s, List.mem_flatMap.mpr ⟨(k, Yaml.str s), h,
      List.mem_singleton.mpr rfl⟩⟩
  | null =>
    exact ⟨[], List.mem_flatMap.mpr ⟨(k, Yaml.null), h,
      List.mem_singleton.mpr rfl⟩⟩
  | list xs =>
    exact ⟨[], List.mem_flatMap.mpr ⟨(k, Yaml.list xs), h,
      List.mem_cons_self _ _⟩⟩
  | map es2 =>
    exact ⟨[], List.mem_flatMap.mpr ⟨(k, Yaml.map es2), h,
      List.mem_cons_self _ _⟩⟩

theorem sub_lines_mem {fuel ind : Nat} {es : List (Text × Yaml)} {k : Text}
    {inner : List (Text × Yaml)} {l : Text}
    (h : (k, Yaml.map inner) ∈ es)
    (hl : l ∈ renderChildrenF fuel (Yaml.map inner) (ind + 2)) :
    l ∈ renderChildrenF (fuel + 1) (Yaml.map es) ind :=
  List.mem_flatMap.mpr ⟨(k, Yaml.map inner), h, List.mem_cons_of_mem _ hl⟩

/-- C1 amended: full agreement of the extracted facts fails even on
well-formed documents (see the counterexample); what does hold is
one-directional agreement on the concurrency flag: whenever structured
extraction of a document reports a concurrency control, fallback extraction
of the document's rendered text (rendered with fuel at least its nesting
depth, here at least 3, and containing no embedded newline) detects it
too. -/
theorem structured_concurrency_implies_fallback
    (doc : List (Text × Yaml)) (fuel : Nat) (hfuel : 3 ≤ fuel)
    (hnl : (renderChildrenF fuel (Yaml.map doc) 0).all
      (fun l => !(l.contains '\n')) = true)
    (hc : hasConcurrency doc = true) :
    detectConcurrencyFallback (renderDoc fuel doc) = true := by
  obtain ⟨F, rfl⟩ : ∃ F, fuel = F + 1 := ⟨fuel - 1, by omega⟩
  have hline : ∃ n tail, (indSp n ++ "concurrency".toList ++ ':' :: tail) ∈
      renderChildrenF (F + 1) (Yaml.map doc) 0 := by
    unfold hasConcurrency at hc
    rw [Bool.or_eq_true] at hc
    rcases hc with hc | hc
    · cases hl : lookupKey doc "concurrency".toList with
      | none => rw [hl] at hc; simp at hc
      | some v =>
        obtain ⟨tail, ht⟩ := @renderEntry_line F _ _ _ (lookupKey_mem hl) 0
        exact ⟨0, tail, ht⟩
    · cases hj : lookupKey doc "jobs".toList with
      | none => rw [hj] at hc; simp at hc
      | some jv =>
        rw [hj] at hc
        cases jv with
        | map jobs =>
          obtain ⟨jentry, hjmem, hjpred⟩ := List.any_eq_true.mp hc
          obtain ⟨jname, jval⟩ := jentry
          cases jval with
          | map jm =>
            have hjpred2 : (match lookupKey jm "concurrency".toList with
              | some Yaml.null => false
              | some _ => true
              | none => false) = true := hjpred
            cases hcl : lookupKey jm "concurrency".toList with
            | none => rw [hcl] at hjpred2; simp at hjpred2
            | some v2 =>
              obtain ⟨F2, rfl⟩ : ∃ F2, F = F2 + 1 := ⟨F - 1, by omega⟩
              obtain ⟨F3, rfl⟩ : ∃ F3, F2 = F3 + 1 := ⟨F2 - 1, by omega⟩
              obtain ⟨tail, ht⟩ := @renderEntry_line F3 _ _ _ (lookupKey_mem hcl) 4
              refine ⟨4, tail, ?_⟩
              have hstep1 := @sub_lines_mem _ 2 _ _ _ _ hjmem ht
              exact @sub_lines_mem _ 0 _ _ _ _ (lookupKey_mem hj) hstep1
          | str s => simp at hjpred
          | list xs => simp at hjpred
          | null => simp at hjpred
        | str s => simp at hc
        | list xs => simp at hc
        | null => simp at hc
  have hnlprop : ∀ l ∈ renderChildrenF (F + 1) (Yaml.map doc) 0, '\n' ∉ l := by
    intro l hl hmem2
    have hcontains := (List.all_eq_true.mp hnl) l hl
    have helem : l.contains '\n' = true := List.elem_iff.mpr hmem2
    rw [helem] at hcontains
    simp at hcontains
  obtain ⟨n, tail, hmem⟩ := hline
  unfold detectConcurrencyFallback renderDoc
  rw [splitLines_joinLines (List.ne_nil_of_mem hmem) hnlprop]
  exact List.any_eq_true.mpr ⟨_, hmem, lineConc_keyline n tail⟩

/-- C1 amended witness: a document with a workflow-level concurrency mapping
is detected by the fallback on its rendering. -/
theorem structured_concurrency_implies_fallback_witness :
    detectConcurrencyFallback (renderDoc 3
      [("concurrency".toList, Yaml.map [("group".toList, Yaml.str "g".toList)])]) = true :=
  structured_concurrency_implies_fallback
    [("concurrency".toList, Yaml.map [("group".toList, Yaml.str "g".toList)])]
    3 (by decide) (by decide) (by decide)
